import Mathlib

/-!
Shallow embedding of the page-coloring model (`page_coloring_model.py`).

Python machine arithmetic on cache geometry divides exactly (floats that are
checked with `is_integer()`); we model those divisions with natural-number
divisibility.  Python exceptions (`AssertionError`, `ColorExhaustion`,
`IndexError`, `ValueError`, `ZeroDivisionError`) become an explicit error type
threaded through `Except`.  Python dictionaries keyed by `SystemPageColor` with
all system page colors as keys become total functions out of `SystemPageColor`;
`MemoryConsumer` objects are identified by natural-number ids, and the
attributes relevant to an algorithm (executors, CPU-affinity constraints,
accumulated color lists) are passed as explicit finite maps.
-/

namespace PageColoring

/-- Exceptions of the Python model.  `colorExhaustion` is the class
`ColorAssigner.ColorExhaustion`; `domainMembershipError` stands for the
`#ASSMS-CACHE-ISOLATION-0/1` assertion failures; `geometryError` for the
`#ASSMS-CACHE-PROPS-ONLY-INTS` assertion failures; the remaining constructors
model the corresponding built-in Python exceptions. -/
inductive ModelError where
  | colorExhaustion
  | domainMembershipError
  | geometryError
  | zeroDivisionError
  | assertionError
  | indexError
  | valueError
  | attributeError
deriving DecidableEq

/-- `Hardware.SystemPageColor`: a pair of a CPU core (by id) and a CPU page
color index. -/
structure SystemPageColor where
  cpu : Nat
  cpu_page_color : Nat
deriving DecidableEq

def SystemPageColor.get_cpu (c : SystemPageColor) : Nat := c.cpu

def SystemPageColor.get_cpu_page_color (c : SystemPageColor) : Nat := c.cpu_page_color

/-- The `Cache` class after a successful `__init__`. -/
structure Cache where
  total_capacity : Nat
  associativity : Nat
  cacheline_capacity : Nat
  shared : Bool
  flushed : Bool
  page_size : Nat
  sets : Nat
  affected_sets_per_page : Nat
  colors : Nat
deriving DecidableEq, Inhabited

/-- `Cache.__init__`.  The Python code computes
`sets = total_capacity / (associativity * cacheline_capacity)`,
`affected_sets_per_page = page_size / cacheline_capacity` and
`colors = sets / (page_size / cacheline_capacity)` with exact (float) division
and then asserts that all three are integers; as exact rationals the third
quotient equals `total_capacity / (associativity * page_size)`.  A zero divisor
raises `ZeroDivisionError` before the assertions run. -/
def Cache.init (total_capacity associativity cacheline_capacity : Nat)
    (shared flushed : Bool) (page_size : Nat) : Except ModelError Cache :=
  if associativity * cacheline_capacity = 0 ∨ page_size = 0 then
    .error .zeroDivisionError
  else if ¬ (associativity * cacheline_capacity ∣ total_capacity) then
    .error .geometryError
  else if ¬ (cacheline_capacity ∣ page_size) then
    .error .geometryError
  else if ¬ (associativity * page_size ∣ total_capacity) then
    .error .geometryError
  else
    .ok { total_capacity := total_capacity
          associativity := associativity
          cacheline_capacity := cacheline_capacity
          shared := shared
          flushed := flushed
          page_size := page_size
          sets := total_capacity / (associativity * cacheline_capacity)
          affected_sets_per_page := page_size / cacheline_capacity
          colors := total_capacity / (associativity * page_size) }

def Cache.get_colors (c : Cache) : Nat := c.colors

def Cache.get_flushed (c : Cache) : Bool := c.flushed

/-- The `Hardware` class: CPU cores (by id) and the per-level cache lists of
its `CPUCacheConfig` (first element: L1 caches, second: L2 caches, ...). -/
structure Hardware where
  cpu_cores : List Nat
  caches : List (List Cache)

/-- Loop body of `Hardware.get_number_of_cpu_page_colors`: walk the cache
levels, remembering the representative (first) cache's color count, skipping
flushed levels and stopping at the first unflushed one.  Indexing an empty
level (`caches_of_same_level[0]`) raises `IndexError`. -/
def colorsLoop : List (List Cache) → Nat → Except ModelError Nat
  | [], acc => .ok acc
  | level :: rest, _ =>
    match level with
    | [] => .error .indexError
    | c :: _ => if c.flushed then colorsLoop rest c.colors else .ok c.colors

/-- `Hardware.get_number_of_cpu_page_colors`, including the final
`assert colors_of_one_cache > 0`. -/
def Hardware.get_number_of_cpu_page_colors (hw : Hardware) : Except ModelError Nat :=
  match colorsLoop hw.caches 0 with
  | .error e => .error e
  | .ok n => if 0 < n then .ok n else .error .assertionError

/-- The colors `(CPU_0, p), (CPU_1, p), ...` of one CPU page color index. -/
def colorsOfPage (cpu_cores : List Nat) (p : Nat) : List SystemPageColor :=
  cpu_cores.map (fun cpu => ⟨cpu, p⟩)

/-- `Hardware.get_all_system_page_colors` list, for a given number `n` of CPU
page colors: `(CPU_0, 0), (CPU_1, 0), ..., (CPU_0, 1), (CPU_1, 1), ...` —
the page-color index is the slow index, the CPU the fast one. -/
def allSystemPageColors (cpu_cores : List Nat) : Nat → List SystemPageColor
  | 0 => []
  | n + 1 => allSystemPageColors cpu_cores n ++ colorsOfPage cpu_cores n

def Hardware.get_all_system_page_colors (hw : Hardware) :
    Except ModelError (List SystemPageColor) :=
  match hw.get_number_of_cpu_page_colors with
  | .error e => .error e
  | .ok n => .ok (allSystemPageColors hw.cpu_cores n)

/-- `Hardware.get_number_of_system_page_colors`: CPU page colors times the
number of CPU cores. -/
def Hardware.get_number_of_system_page_colors (hw : Hardware) : Except ModelError Nat :=
  match hw.get_number_of_cpu_page_colors with
  | .error e => .error e
  | .ok n => .ok (n * hw.cpu_cores.length)

theorem allSystemPageColors_length (cpu_cores : List Nat) (n : Nat) :
    (allSystemPageColors cpu_cores n).length = n * cpu_cores.length := by
  induction n with
  | zero => simp [allSystemPageColors]
  | succ n ih =>
    simp [allSystemPageColors, colorsOfPage, ih, Nat.succ_mul]

theorem allSystemPageColors_succ (cpu_cores : List Nat) (n : Nat) :
    allSystemPageColors cpu_cores (n + 1) =
      allSystemPageColors cpu_cores n ++ colorsOfPage cpu_cores n := rfl

theorem allSystemPageColors_get (cpu_cores : List Nat) (n p j : Nat)
    (hp : p < n) (hj : j < cpu_cores.length)
    (h : p * cpu_cores.length + j < (allSystemPageColors cpu_cores n).length) :
    (allSystemPageColors cpu_cores n).get ⟨p * cpu_cores.length + j, h⟩ =
      ⟨cpu_cores.get ⟨j, hj⟩, p⟩ := by
  induction n with
  | zero => omega
  | succ n ih =>
    simp only [List.get_eq_getElem, allSystemPageColors_succ] at h ⊢
    rcases Nat.lt_or_ge p n with hlt | hge
    · have hbound : p * cpu_cores.length + j < (allSystemPageColors cpu_cores n).length := by
        rw [allSystemPageColors_length]
        calc p * cpu_cores.length + j < p * cpu_cores.length + cpu_cores.length := by omega
          _ = (p + 1) * cpu_cores.length := by ring
          _ ≤ n * cpu_cores.length := Nat.mul_le_mul_right _ hlt
      rw [List.getElem_append_left hbound]
      have := ih hlt hbound
      simpa using this
    · have hpn : p = n := by omega
      subst hpn
      have hlen : (allSystemPageColors cpu_cores p).length = p * cpu_cores.length :=
        allSystemPageColors_length cpu_cores p
      rw [List.getElem_append_right (by omega)]
      simp [colorsOfPage, hlen]

theorem mem_allSystemPageColors (cpu_cores : List Nat) (n : Nat) (c : SystemPageColor) :
    c ∈ allSystemPageColors cpu_cores n ↔
      c.cpu ∈ cpu_cores ∧ c.cpu_page_color < n := by
  induction n with
  | zero => simp [allSystemPageColors]
  | succ n ih =>
    simp only [allSystemPageColors, List.mem_append, ih, colorsOfPage, List.mem_map]
    constructor
    · rintro (⟨h1, h2⟩ | ⟨cpu, hcpu, rfl⟩)
      · exact ⟨h1, by omega⟩
      · exact ⟨hcpu, by simp⟩
    · rintro ⟨h1, h2⟩
      rcases Nat.lt_or_ge c.cpu_page_color n with hlt | hge
      · exact Or.inl ⟨h1, hlt⟩
      · have hn : c.cpu_page_color = n := by omega
        refine Or.inr ⟨c.cpu, h1, ?_⟩
        cases c with
        | mk a b =>
          simp only at hn
          rw [hn]

theorem colorsLoop_found (levels : List (List Cache)) (acc : Nat) (c : Cache)
    (hlvl : ∀ lvl ∈ levels, lvl ≠ [])
    (hfind : (levels.map (fun (lvl : List Cache) => lvl.headD default)).find? (fun c0 => !c0.flushed) =
      some c) :
    colorsLoop levels acc = .ok c.colors := by
  induction levels generalizing acc with
  | nil => simp at hfind
  | cons lvl rest ih =>
    cases lvl with
    | nil => exact absurd rfl (hlvl [] (by simp))
    | cons c0 tl =>
      simp only [List.map_cons, List.headD_cons] at hfind
      by_cases hfl : c0.flushed
      · rw [List.find?_cons_of_neg _ (by simp [hfl])] at hfind
        simp only [colorsLoop, hfl, if_true]
        exact ih _ (fun l hl => hlvl l (List.mem_cons_of_mem _ hl)) hfind
      · rw [List.find?_cons_of_pos _ (by simp [hfl])] at hfind
        cases hfind
        simp [colorsLoop, hfl]

theorem colorsLoop_all_flushed (levels : List (List Cache)) (acc : Nat)
    (hne : levels ≠ [])
    (hlvl : ∀ lvl ∈ levels, lvl ≠ [])
    (hfind : (levels.map (fun (lvl : List Cache) => lvl.headD default)).find? (fun c0 => !c0.flushed) =
      none) :
    colorsLoop levels acc =
      .ok (((levels.map (fun (lvl : List Cache) => lvl.headD default)).getLastD default).colors) := by
  induction levels generalizing acc with
  | nil => exact absurd rfl hne
  | cons lvl rest ih =>
    cases lvl with
    | nil => exact absurd rfl (hlvl [] (by simp))
    | cons c0 tl =>
      simp only [List.map_cons, List.headD_cons, List.find?_cons] at hfind
      by_cases hfl : c0.flushed
      · simp only [hfl, Bool.not_true] at hfind
        simp only [colorsLoop, hfl, if_true]
        cases hrest : rest with
        | nil =>
          subst hrest
          simp at hfind
          simp [colorsLoop]
        | cons r rs =>
          subst hrest
          rw [ih _ (by simp) (fun l hl => hlvl l (List.mem_cons_of_mem _ hl)) hfind]
          simp [List.getLastD_cons]
      · simp [hfl] at hfind

/-- C10: `get_number_of_cpu_page_colors` returns the color count of the
representative (first) cache of the first cache level whose representative is
not flushed, scanning levels in order; if every representative is flushed it
returns the last level's color count; the result must be positive, otherwise
the assertion fails. -/
theorem c10_get_number_of_cpu_page_colors (hw : Hardware)
    (hne : hw.caches ≠ []) (hlvl : ∀ lvl ∈ hw.caches, lvl ≠ []) :
    hw.get_number_of_cpu_page_colors =
      match (hw.caches.map (fun (lvl : List Cache) => lvl.headD default)).find? (fun c0 => !c0.flushed) with
      | some c => if 0 < c.colors then .ok c.colors else .error .assertionError
      | none =>
        if 0 < ((hw.caches.map (fun (lvl : List Cache) => lvl.headD default)).getLastD default).colors
        then .ok (((hw.caches.map (fun (lvl : List Cache) => lvl.headD default)).getLastD default).colors)
        else .error .assertionError := by
  unfold Hardware.get_number_of_cpu_page_colors
  cases hfind : (hw.caches.map (fun (lvl : List Cache) => lvl.headD default)).find? (fun c0 => !c0.flushed) with
  | some c => rw [colorsLoop_found hw.caches 0 c hlvl hfind]
  | none => rw [colorsLoop_all_flushed hw.caches 0 hne hlvl hfind]

/-- Example level stack used to instantiate C10: a flushed L1 in front of an
unflushed L2. -/
def c10L1 : Cache :=
  ⟨32768, 8, 64, false, true, 4096, 64, 64, 1⟩

def c10L2 : Cache :=
  ⟨2097152, 8, 64, false, false, 4096, 4096, 64, 64⟩

def c10Hw : Hardware := ⟨[0, 1], [[c10L1], [c10L2]]⟩

theorem c10_witness :
    c10Hw.get_number_of_cpu_page_colors = .ok 64 := by
  rw [c10_get_number_of_cpu_page_colors c10Hw (by simp [c10Hw]) (by decide)]
  rfl

/-- C6: for a `Cache` built from `(total_capacity, associativity,
cacheline_capacity, page_size)` with nonzero divisors, if the three derived
quantities `number_of_sets = total_capacity/(associativity*cacheline_capacity)`,
`affected_sets_per_page = page_size/cacheline_capacity` and
`number_of_colors = number_of_sets/affected_sets_per_page` are exact (positive)
integers then construction succeeds and stores exactly those values, and if any
of the three is non-integral construction fails with the geometry error. -/
theorem c6_cache_geometry (total_capacity associativity cacheline_capacity : Nat)
    (shared flushed : Bool) (page_size : Nat)
    (ha : 0 < associativity * cacheline_capacity) (hp : 0 < page_size) :
    ((associativity * cacheline_capacity ∣ total_capacity ∧
      cacheline_capacity ∣ page_size ∧
      associativity * page_size ∣ total_capacity) →
      Cache.init total_capacity associativity cacheline_capacity shared flushed page_size =
        .ok { total_capacity := total_capacity
              associativity := associativity
              cacheline_capacity := cacheline_capacity
              shared := shared
              flushed := flushed
              page_size := page_size
              sets := total_capacity / (associativity * cacheline_capacity)
              affected_sets_per_page := page_size / cacheline_capacity
              colors := total_capacity / (associativity * page_size) })
    ∧ ((¬ associativity * cacheline_capacity ∣ total_capacity ∨
        ¬ cacheline_capacity ∣ page_size ∨
        ¬ associativity * page_size ∣ total_capacity) →
      Cache.init total_capacity associativity cacheline_capacity shared flushed page_size =
        .error .geometryError) := by
  constructor
  · rintro ⟨h1, h2, h3⟩
    unfold Cache.init
    rw [if_neg (by omega), if_neg (by simp [h1]), if_neg (by simp [h2]),
      if_neg (by simp [h3])]
  · intro hbad
    unfold Cache.init
    rw [if_neg (by omega)]
    by_cases h1 : associativity * cacheline_capacity ∣ total_capacity
    · rw [if_neg (by simp [h1])]
      by_cases h2 : cacheline_capacity ∣ page_size
      · rw [if_neg (by simp [h2])]
        have h3 : ¬ associativity * page_size ∣ total_capacity := by tauto
        rw [if_pos (by simp [h3])]
      · rw [if_pos (by simp [h2])]
    · rw [if_pos (by simp [h1])]

theorem c6_witness :
    Cache.init 32768 8 64 false false 4096 =
      .ok { total_capacity := 32768
            associativity := 8
            cacheline_capacity := 64
            shared := false
            flushed := false
            page_size := 4096
            sets := 64
            affected_sets_per_page := 64
            colors := 1 } :=
  (c6_cache_geometry 32768 8 64 false false 4096 (by decide) (by decide)).1
    (by refine ⟨⟨64, by decide⟩, ⟨64, by decide⟩, ⟨1, by decide⟩⟩)

/-- The assignment dictionary `Dict[SystemPageColor, Set[MemoryConsumer]]`,
as a total function; memory consumers are identified by `Nat` ids. -/
def Assignment : Type := SystemPageColor → Finset Nat

/-- `assignment[color].add(memory_consumer)`. -/
def addTo (asg : Assignment) (c : SystemPageColor) (mc : Nat) : Assignment :=
  fun spc => if spc = c then insert mc (asg spc) else asg spc

/-- The empty assignment dictionary (every color maps to the empty set). -/
def emptyAssignment : Assignment := fun _ => ∅

/-- `ColorAssigner.get_assignment_by_naive`: fail with `ColorExhaustion` when
there are more memory consumers than system page colors, otherwise zip the
consumers (in their iteration order) against all system page colors. -/
def ColorAssigner.get_assignment_by_naive (hw : Hardware) (consumers : List Nat) :
    Except ModelError Assignment :=
  match hw.get_number_of_cpu_page_colors with
  | .error e => .error e
  | .ok n =>
    if consumers.length > n * hw.cpu_cores.length then .error .colorExhaustion
    else
      .ok ((consumers.zip (allSystemPageColors hw.cpu_cores n)).foldl
        (fun asg pair => addTo asg pair.2 pair.1) emptyAssignment)

theorem mem_addTo (asg : Assignment) (c spc : SystemPageColor) (mc m : Nat) :
    m ∈ addTo asg c mc spc ↔ (spc = c ∧ m = mc) ∨ m ∈ asg spc := by
  unfold addTo
  by_cases h : spc = c
  · subst h
    simp
  · simp [h]

theorem mem_zip_foldl_addTo (l : List (Nat × SystemPageColor)) (asg : Assignment)
    (m : Nat) (c : SystemPageColor) :
    m ∈ (l.foldl (fun asg pair => addTo asg pair.2 pair.1) asg) c ↔
      m ∈ asg c ∨ (m, c) ∈ l := by
  induction l generalizing asg with
  | nil => simp
  | cons p rest ih =>
    simp only [List.foldl_cons, ih, mem_addTo, List.mem_cons]
    constructor
    · rintro (((rfl | h) | h) | h)
      · exact Or.inr (Or.inl (by cases p; simp_all))
      · tauto
      · tauto
    · rintro (h | (h | h))
      · tauto
      · cases p
        simp only [Prod.mk.injEq] at h
        exact Or.inl (Or.inl ⟨h.2, h.1⟩)
      · tauto

theorem mem_zip_iff_get (l1 : List Nat) (l2 : List SystemPageColor) (a : Nat)
    (b : SystemPageColor) :
    (a, b) ∈ l1.zip l2 ↔
      ∃ i, ∃ h1 : i < l1.length, ∃ h2 : i < l2.length,
        l1.get ⟨i, h1⟩ = a ∧ l2.get ⟨i, h2⟩ = b := by
  induction l1 generalizing l2 with
  | nil => simp
  | cons x xs ih =>
    cases l2 with
    | nil => simp
    | cons y ys =>
      simp only [List.zip_cons_cons, List.mem_cons, ih, Prod.mk.injEq]
      constructor
      · rintro (⟨rfl, rfl⟩ | ⟨i, h1, h2, hx, hy⟩)
        · exact ⟨0, by simp, by simp, by simp, by simp⟩
        · exact ⟨i + 1, by simpa using Nat.succ_lt_succ h1,
            by simpa using Nat.succ_lt_succ h2, by simpa using hx, by simpa using hy⟩
      · rintro ⟨i, h1, h2, hx, hy⟩
        cases i with
        | zero => simp_all
        | succ i =>
          refine Or.inr ⟨i, by simpa using h1, by simpa using h2, ?_, ?_⟩
          · simpa using hx
          · simpa using hy

/-- C2: `get_assignment_by_naive` raises `ColorExhaustion` when there are more
consumers than system page colors; otherwise it zips the consumers, in
iteration order, one-to-one against all system page colors taken in the order
`(CPU_0,0), (CPU_1,0), ..., (CPU_0,1), ...` (color 0 is offered to every core
before color 1), and each consumer is assigned exactly one system page color. -/
theorem c2_get_assignment_by_naive (hw : Hardware) (consumers : List Nat) (n : Nat)
    (hn : hw.get_number_of_cpu_page_colors = .ok n)
    (hcons : consumers.Nodup) :
    (consumers.length > n * hw.cpu_cores.length →
      ColorAssigner.get_assignment_by_naive hw consumers = .error .colorExhaustion)
    ∧ (consumers.length ≤ n * hw.cpu_cores.length →
      ∀ asg, ColorAssigner.get_assignment_by_naive hw consumers = .ok asg →
        (∀ p j, ∀ hp : p < n, ∀ hj : j < hw.cpu_cores.length,
          ∀ h : p * hw.cpu_cores.length + j < (allSystemPageColors hw.cpu_cores n).length,
          (allSystemPageColors hw.cpu_cores n).get ⟨p * hw.cpu_cores.length + j, h⟩ =
            ⟨hw.cpu_cores.get ⟨j, hj⟩, p⟩)
        ∧ (∀ i, ∀ hi : i < consumers.length,
            ∀ hi2 : i < (allSystemPageColors hw.cpu_cores n).length,
            consumers.get ⟨i, hi⟩ ∈ asg ((allSystemPageColors hw.cpu_cores n).get ⟨i, hi2⟩)
            ∧ ∀ c, consumers.get ⟨i, hi⟩ ∈ asg c →
                c = (allSystemPageColors hw.cpu_cores n).get ⟨i, hi2⟩)) := by
  constructor
  · intro hgt
    unfold ColorAssigner.get_assignment_by_naive
    rw [hn]
    simp only [if_pos hgt]
  · intro hle asg hok
    unfold ColorAssigner.get_assignment_by_naive at hok
    rw [hn] at hok
    simp only [if_neg (show ¬ consumers.length > n * hw.cpu_cores.length by omega),
      Except.ok.injEq] at hok
    subst hok
    constructor
    · intro p j hp hj h
      exact allSystemPageColors_get hw.cpu_cores n p j hp hj h
    · intro i hi hi2
      constructor
      · rw [mem_zip_foldl_addTo]
        refine Or.inr ?_
        rw [mem_zip_iff_get]
        exact ⟨i, hi, hi2, rfl, rfl⟩
      · intro c hc
        rw [mem_zip_foldl_addTo] at hc
        rcases hc with hc | hc
        · simp [emptyAssignment] at hc
        · rw [mem_zip_iff_get] at hc
          obtain ⟨k, hk1, hk2, hka, hkb⟩ := hc
          have hki : k = i := by
            have := (List.Nodup.get_inj_iff hcons
              (i := ⟨k, hk1⟩) (j := ⟨i, hi⟩)).mp (by rw [hka])
            simpa using this
          subst hki
          rw [← hkb]
  
def c2Cache : Cache := ⟨65536, 8, 64, false, false, 4096, 128, 64, 2⟩

def c2Hw : Hardware := ⟨[0, 1], [[c2Cache]]⟩

def c2Asg : Assignment :=
  match ColorAssigner.get_assignment_by_naive c2Hw [5, 6, 7] with
  | .ok a => a
  | .error _ => emptyAssignment

theorem c2_witness : (5 : Nat) ∈ c2Asg (⟨0, 0⟩ : SystemPageColor) :=
  (((c2_get_assignment_by_naive c2Hw [5, 6, 7] 2 rfl (by decide)).2
    (by decide) c2Asg rfl).2 0 (by decide) (by decide)).1

/-- The CPU cores a memory consumer may run on: the concatenation (union) of
the `executor_cpu_constraints` entries of all its executors, as built by
`cpus.extend(executor_cpu_constraints[executor])` in the source
(`getExecutors` maps a consumer id to its executor ids, `ecc` maps an executor
id to its CPU-affinity list). -/
def requiredCpus (getExecutors ecc : Nat → List Nat) (mc : Nat) : List Nat :=
  (getExecutors mc).flatMap ecc

/-- Whether the system page colors of one CPU page color index are unreserved
for every CPU of the consumer (the `all(len(assignment[...]) == 0 ...)` test). -/
def pageColorFree (cpus : List Nat) (asg : Assignment) (p : Nat) : Bool :=
  cpus.all (fun cpu => (asg ⟨cpu, p⟩).card == 0)

/-- The `for cpu_page_color in range(...)` search: try indices `p, p+1, ...`
for `fuel` steps and return the first one accepted by `good`. -/
def searchPageColor (good : Nat → Bool) : Nat → Nat → Option Nat
  | 0, _ => none
  | fuel + 1, p => if good p then some p else searchPageColor good fuel (p + 1)

/-- `get_next_assignable_colors` (inner function of
`get_assignment_by_cache_isolation_domains`): the next assignable colors of a
memory consumer with required CPU list `cpus`, without reserving them —
one color per required CPU, all with the lowest commonly-free page color
index; `ColorExhaustion` if no index fits. -/
def ColorAssigner.get_next_assignable_colors (n : Nat) (cpus : List Nat)
    (asg : Assignment) : Except ModelError (List SystemPageColor) :=
  match searchPageColor (pageColorFree cpus asg) n 0 with
  | some p => .ok (cpus.map (fun cpu => ⟨cpu, p⟩))
  | none => .error .colorExhaustion

/-- The per-domain candidate collection loop: extend the domain's color pool
with each member's next assignable colors. -/
def collectDomainColors (n : Nat) (getExecutors ecc : Nat → List Nat)
    (asg : Assignment) : List Nat → Except ModelError (List SystemPageColor)
  | [] => .ok []
  | mc :: rest =>
    match ColorAssigner.get_next_assignable_colors n (requiredCpus getExecutors ecc mc) asg with
    | .error e => .error e
    | .ok cs =>
      match collectDomainColors n getExecutors ecc asg rest with
      | .error e => .error e
      | .ok more => .ok (cs ++ more)

/-- Inner loop of `assign_colors`: for one pool color, add every member of the
domain whose required CPUs contain the color's CPU. -/
def assign_colors_inner (c : SystemPageColor) (getExecutors ecc : Nat → List Nat) :
    List Nat → Assignment → Assignment
  | [], asg => asg
  | mc :: rest, asg =>
    if c.cpu ∈ requiredCpus getExecutors ecc mc then
      assign_colors_inner c getExecutors ecc rest (addTo asg c mc)
    else
      assign_colors_inner c getExecutors ecc rest asg

/-- `assign_colors` (inner function): for each color of the domain pool and
each domain member, reserve the color for the member when the color's CPU is
among the member's required CPUs. -/
def assign_colors (domain : List Nat) (getExecutors ecc : Nat → List Nat) :
    List SystemPageColor → Assignment → Assignment
  | [], asg => asg
  | c :: pool, asg =>
    assign_colors domain getExecutors ecc pool
      (assign_colors_inner c getExecutors ecc domain asg)

/-- `assign_colors_to_cache_isolation_domain`: collect each member's candidate
colors into the domain pool, then reserve the pool for the domain. -/
def ColorAssigner.assign_colors_to_cache_isolation_domain (n : Nat)
    (getExecutors ecc : Nat → List Nat) (domain : List Nat) (asg : Assignment) :
    Except ModelError Assignment :=
  match collectDomainColors n getExecutors ecc asg domain with
  | .error e => .error e
  | .ok pool => .ok (assign_colors domain getExecutors ecc pool asg)

/-- The one pass over the cache isolation domains (`for ci_domain in
cache_isolation_domains`). -/
def ColorAssigner.runDomains (n : Nat) (getExecutors ecc : Nat → List Nat) :
    List (List Nat) → Assignment → Except ModelError Assignment
  | [], asg => .ok asg
  | d :: rest, asg =>
    match ColorAssigner.assign_colors_to_cache_isolation_domain n getExecutors ecc d asg with
    | .error e => .error e
    | .ok asg1 => ColorAssigner.runDomains n getExecutors ecc rest asg1

/-- The `count_membership_of_mc` loop: for each cache isolation domain
containing the consumer, add one. -/
def count_membership (domains : List (List Nat)) (mc : Nat) : Nat :=
  domains.foldl (fun acc d => if mc ∈ d then acc + 1 else acc) 0

/-- `ColorAssigner.get_assignment_by_cache_isolation_domains`: check that every
memory consumer is a member of exactly one cache isolation domain (the
`#ASSMS-CACHE-ISOLATION-0/1` assertions, raised before any color is reserved),
then run one pass over the domains starting from the all-empty assignment
dictionary.  The unimplemented `cpu_access_constraints` parameter (asserted to
be `None` in the source) is omitted. -/
def ColorAssigner.get_assignment_by_cache_isolation_domains (hw : Hardware)
    (consumers : List Nat) (domains : List (List Nat))
    (getExecutors ecc : Nat → List Nat) : Except ModelError Assignment :=
  if consumers.any (fun mc => count_membership domains mc == 0) then
    .error .domainMembershipError
  else if ¬ (consumers.all (fun mc => count_membership domains mc == 1)) then
    .error .domainMembershipError
  else
    match hw.get_number_of_cpu_page_colors with
    | .error e => .error e
    | .ok n => ColorAssigner.runDomains n getExecutors ecc domains emptyAssignment

theorem searchPageColor_some (good : Nat → Bool) (fuel p q : Nat)
    (h : searchPageColor good fuel p = some q) :
    p ≤ q ∧ q < p + fuel ∧ good q = true ∧ ∀ r, p ≤ r → r < q → good r = false := by
  induction fuel generalizing p with
  | zero => simp [searchPageColor] at h
  | succ fuel ih =>
    unfold searchPageColor at h
    by_cases hg : good p
    · rw [if_pos hg] at h
      cases h
      exact ⟨Nat.le_refl _, by omega, hg, fun r hr1 hr2 => by omega⟩
    · rw [if_neg hg] at h
      obtain ⟨h1, h2, h3, h4⟩ := ih (p + 1) h
      refine ⟨by omega, by omega, h3, fun r hr1 hr2 => ?_⟩
      rcases Nat.eq_or_lt_of_le hr1 with rfl | hlt
      · exact Bool.of_not_eq_true hg
      · exact h4 r (by omega) hr2

theorem searchPageColor_none (good : Nat → Bool) (fuel p : Nat) :
    searchPageColor good fuel p = none ↔
      ∀ q, p ≤ q → q < p + fuel → good q = false := by
  induction fuel generalizing p with
  | zero => simp [searchPageColor]; intro q h1 h2; omega
  | succ fuel ih =>
    unfold searchPageColor
    by_cases hg : good p
    · simp only [if_pos hg]
      constructor
      · intro h; cases h
      · intro h
        have := h p (Nat.le_refl _) (by omega)
        rw [hg] at this
        cases this
    · simp only [if_neg hg, ih]
      constructor
      · intro h q h1 h2
        rcases Nat.eq_or_lt_of_le h1 with rfl | hlt
        · exact Bool.of_not_eq_true hg
        · exact h q (by omega) (by omega)
      · intro h q h1 h2
        exact h q (by omega) (by omega)

/-- C3: in the cache-isolation-domain strategy, a member's candidate colors are
exactly `SystemPageColor(cpu, p)` for every CPU in its required CPU list, where
`p` is the lowest page-color index that is unreserved (no assigned consumer)
for every required CPU — a member with `k` required CPUs yields `k` candidates
with the same index — and `ColorExhaustion` is raised exactly when no
page-color index below the CPU page color count satisfies all required CPUs. -/
theorem c3_get_next_assignable_colors (n : Nat) (cpus : List Nat) (asg : Assignment) :
    (∀ p, searchPageColor (pageColorFree cpus asg) n 0 = some p →
      ColorAssigner.get_next_assignable_colors n cpus asg =
          .ok (cpus.map (fun cpu => ⟨cpu, p⟩))
        ∧ p < n
        ∧ (∀ cpu ∈ cpus, asg ⟨cpu, p⟩ = ∅)
        ∧ (∀ q, q < p → ∃ cpu ∈ cpus, asg ⟨cpu, q⟩ ≠ ∅)
        ∧ (cpus.map (fun cpu => (⟨cpu, p⟩ : SystemPageColor))).length = cpus.length
        ∧ (∀ c, c ∈ cpus.map (fun cpu => (⟨cpu, p⟩ : SystemPageColor)) ↔
            ∃ cpu ∈ cpus, c = ⟨cpu, p⟩))
    ∧ (ColorAssigner.get_next_assignable_colors n cpus asg = .error .colorExhaustion ↔
        ∀ p, p < n → ∃ cpu ∈ cpus, asg ⟨cpu, p⟩ ≠ ∅) := by
  have hfree : ∀ q, pageColorFree cpus asg q = true ↔ ∀ cpu ∈ cpus, asg ⟨cpu, q⟩ = ∅ := by
    intro q
    unfold pageColorFree
    rw [List.all_eq_true]
    constructor
    · intro h cpu hcpu
      have := h cpu hcpu
      simp only [beq_iff_eq, Finset.card_eq_zero] at this
      exact this
    · intro h cpu hcpu
      simp only [beq_iff_eq, Finset.card_eq_zero]
      exact h cpu hcpu
  have hnotfree : ∀ q, pageColorFree cpus asg q = false ↔
      ∃ cpu ∈ cpus, asg ⟨cpu, q⟩ ≠ ∅ := by
    intro q
    rw [← Bool.not_eq_true, hfree q]
    push_neg
    rfl
  constructor
  · intro p hp
    obtain ⟨h1, h2, h3, h4⟩ := searchPageColor_some _ n 0 p hp
    refine ⟨?_, by omega, (hfree p).mp h3, ?_, by simp, ?_⟩
    · unfold ColorAssigner.get_next_assignable_colors
      rw [hp]
    · intro q hq
      exact (hnotfree q).mp (h4 q (Nat.zero_le _) hq)
    · intro c
      simp only [List.mem_map]
      constructor
      · rintro ⟨cpu, hcpu, rfl⟩
        exact ⟨cpu, hcpu, rfl⟩
      · rintro ⟨cpu, hcpu, rfl⟩
        exact ⟨cpu, hcpu, rfl⟩
  · unfold ColorAssigner.get_next_assignable_colors
    cases hs : searchPageColor (pageColorFree cpus asg) n 0 with
    | some p =>
      constructor
      · intro h; cases h
      · intro h
        obtain ⟨h1, h2, h3, h4⟩ := searchPageColor_some _ n 0 p hs
        have := (hnotfree p).mpr (h p (by omega))
        rw [h3] at this
        cases this
    | none =>
      rw [searchPageColor_none] at hs
      constructor
      · intro _ p hpn
        exact (hnotfree p).mp (hs p (Nat.zero_le _) (by omega))
      · intro _
        rfl

def c3Asg : Assignment := addTo emptyAssignment ⟨0, 0⟩ 9

theorem c3_witness :
    ColorAssigner.get_next_assignable_colors 2 [0] c3Asg =
      .ok [(⟨0, 1⟩ : SystemPageColor)] :=
  ((c3_get_next_assignable_colors 2 [0] c3Asg).1 1 (by decide)).1

theorem mem_assign_colors_inner (c : SystemPageColor) (getExecutors ecc : Nat → List Nat)
    (d : List Nat) (asg : Assignment) (spc : SystemPageColor) (m : Nat) :
    m ∈ assign_colors_inner c getExecutors ecc d asg spc ↔
      m ∈ asg spc ∨ (spc = c ∧ m ∈ d ∧ c.cpu ∈ requiredCpus getExecutors ecc m) := by
  induction d generalizing asg with
  | nil => simp [assign_colors_inner]
  | cons mc rest ih =>
    unfold assign_colors_inner
    by_cases hmem : c.cpu ∈ requiredCpus getExecutors ecc mc
    · rw [if_pos hmem, ih, mem_addTo]
      constructor
      · rintro ((⟨rfl, rfl⟩ | h) | ⟨rfl, h2, h3⟩)
        · exact Or.inr ⟨rfl, by simp, hmem⟩
        · tauto
        · exact Or.inr ⟨rfl, List.mem_cons_of_mem _ h2, h3⟩
      · rintro (h | ⟨rfl, h2, h3⟩)
        · tauto
        · rcases List.mem_cons.mp h2 with rfl | h2
          · exact Or.inl (Or.inl ⟨rfl, rfl⟩)
          · exact Or.inr ⟨rfl, h2, h3⟩
    · rw [if_neg hmem, ih]
      constructor
      · rintro (h | ⟨rfl, h2, h3⟩)
        · tauto
        · exact Or.inr ⟨rfl, List.mem_cons_of_mem _ h2, h3⟩
      · rintro (h | ⟨rfl, h2, h3⟩)
        · tauto
        · rcases List.mem_cons.mp h2 with rfl | h2
          · exact absurd h3 hmem
          · exact Or.inr ⟨rfl, h2, h3⟩

theorem mem_assign_colors (domain : List Nat) (getExecutors ecc : Nat → List Nat)
    (pool : List SystemPageColor) (asg : Assignment) (spc : SystemPageColor) (m : Nat) :
    m ∈ assign_colors domain getExecutors ecc pool asg spc ↔
      m ∈ asg spc ∨ (spc ∈ pool ∧ m ∈ domain ∧ spc.cpu ∈ requiredCpus getExecutors ecc m) := by
  induction pool generalizing asg with
  | nil => simp [assign_colors]
  | cons c rest ih =>
    unfold assign_colors
    rw [ih, mem_assign_colors_inner]
    constructor
    · rintro ((h | ⟨rfl, h2, h3⟩) | ⟨h1, h2, h3⟩)
      · tauto
      · exact Or.inr ⟨by simp, h2, h3⟩
      · exact Or.inr ⟨List.mem_cons_of_mem _ h1, h2, h3⟩
    · rintro (h | ⟨h1, h2, h3⟩)
      · tauto
      · rcases List.mem_cons.mp h1 with rfl | h1
        · exact Or.inl (Or.inr ⟨rfl, h2, h3⟩)
        · exact Or.inr ⟨h1, h2, h3⟩

theorem get_next_assignable_colors_ok (n : Nat) (cpus : List Nat) (asg : Assignment)
    (cs : List SystemPageColor)
    (h : ColorAssigner.get_next_assignable_colors n cpus asg = .ok cs) :
    ∃ p, p < n ∧ cs = cpus.map (fun cpu => ⟨cpu, p⟩) ∧
      ∀ cpu ∈ cpus, asg ⟨cpu, p⟩ = ∅ := by
  unfold ColorAssigner.get_next_assignable_colors at h
  cases hs : searchPageColor (pageColorFree cpus asg) n 0 with
  | some p =>
    rw [hs] at h
    cases h
    obtain ⟨h1, h2, h3, h4⟩ := searchPageColor_some _ n 0 p hs
    refine ⟨p, by omega, rfl, ?_⟩
    intro cpu hcpu
    unfold pageColorFree at h3
    rw [List.all_eq_true] at h3
    have := h3 cpu hcpu
    simpa [Finset.card_eq_zero] using this
  | none => rw [hs] at h; cases h

theorem get_next_assignable_colors_err (n : Nat) (cpus : List Nat) (asg : Assignment)
    (e : ModelError)
    (h : ColorAssigner.get_next_assignable_colors n cpus asg = .error e) :
    e = .colorExhaustion := by
  unfold ColorAssigner.get_next_assignable_colors at h
  cases hs : searchPageColor (pageColorFree cpus asg) n 0 with
  | some p => rw [hs] at h; cases h
  | none => rw [hs] at h; cases h; rfl

theorem collectDomainColors_ok_free (n : Nat) (getExecutors ecc : Nat → List Nat)
    (asg : Assignment) (d : List Nat) (pool : List SystemPageColor)
    (h : collectDomainColors n getExecutors ecc asg d = .ok pool) :
    ∀ c ∈ pool, asg c = ∅ ∧ c.cpu_page_color < n := by
  induction d generalizing pool with
  | nil =>
    unfold collectDomainColors at h
    cases h
    simp
  | cons mc rest ih =>
    unfold collectDomainColors at h
    cases hg : ColorAssigner.get_next_assignable_colors n
        (requiredCpus getExecutors ecc mc) asg with
    | error e => rw [hg] at h; cases h
    | ok cs =>
      rw [hg] at h
      cases hc : collectDomainColors n getExecutors ecc asg rest with
      | error e => rw [hc] at h; cases h
      | ok more =>
        rw [hc] at h
        cases h
        intro c hc2
        rcases List.mem_append.mp hc2 with hcs | hmore
        · obtain ⟨p, hp, rfl, hfree⟩ := get_next_assignable_colors_ok _ _ _ _ hg
          obtain ⟨cpu, hcpu, rfl⟩ := List.mem_map.mp hcs
          exact ⟨hfree cpu hcpu, hp⟩
        · exact ih more hc c hmore

theorem collectDomainColors_ok_member (n : Nat) (getExecutors ecc : Nat → List Nat)
    (asg : Assignment) (d : List Nat) (pool : List SystemPageColor) (mc : Nat)
    (h : collectDomainColors n getExecutors ecc asg d = .ok pool) (hmc : mc ∈ d) :
    ∃ p, p < n ∧ ∀ cpu ∈ requiredCpus getExecutors ecc mc,
      (⟨cpu, p⟩ : SystemPageColor) ∈ pool := by
  induction d generalizing pool with
  | nil => cases hmc
  | cons mc0 rest ih =>
    unfold collectDomainColors at h
    cases hg : ColorAssigner.get_next_assignable_colors n
        (requiredCpus getExecutors ecc mc0) asg with
    | error e => rw [hg] at h; cases h
    | ok cs =>
      rw [hg] at h
      cases hc : collectDomainColors n getExecutors ecc asg rest with
      | error e => rw [hc] at h; cases h
      | ok more =>
        rw [hc] at h
        cases h
        rcases List.mem_cons.mp hmc with rfl | hmc
        · obtain ⟨p, hp, rfl, hfree⟩ := get_next_assignable_colors_ok _ _ _ _ hg
          refine ⟨p, hp, fun cpu hcpu => ?_⟩
          exact List.mem_append.mpr (Or.inl (List.mem_map.mpr ⟨cpu, hcpu, rfl⟩))
        · obtain ⟨p, hp, hall⟩ := ih more hc hmc
          exact ⟨p, hp, fun cpu hcpu => List.mem_append.mpr (Or.inr (hall cpu hcpu))⟩

theorem collectDomainColors_err (n : Nat) (getExecutors ecc : Nat → List Nat)
    (asg : Assignment) (d : List Nat) (e : ModelError)
    (h : collectDomainColors n getExecutors ecc asg d = .error e) :
    e = .colorExhaustion := by
  induction d with
  | nil => unfold collectDomainColors at h; cases h
  | cons mc rest ih =>
    unfold collectDomainColors at h
    cases hg : ColorAssigner.get_next_assignable_colors n
        (requiredCpus getExecutors ecc mc) asg with
    | error e2 =>
      rw [hg] at h
      cases h
      exact get_next_assignable_colors_err _ _ _ _ hg
    | ok cs =>
      rw [hg] at h
      cases hc : collectDomainColors n getExecutors ecc asg rest with
      | error e2 => rw [hc] at h; cases h; exact ih hc
      | ok more => rw [hc] at h; cases h

theorem step_ok_mono (n : Nat) (getExecutors ecc : Nat → List Nat) (d : List Nat)
    (asg asg1 : Assignment)
    (h : ColorAssigner.assign_colors_to_cache_isolation_domain n getExecutors ecc d asg =
      .ok asg1)
    (spc : SystemPageColor) (m : Nat) (hm : m ∈ asg spc) : m ∈ asg1 spc := by
  unfold ColorAssigner.assign_colors_to_cache_isolation_domain at h
  cases hc : collectDomainColors n getExecutors ecc asg d with
  | error e => rw [hc] at h; cases h
  | ok pool =>
    rw [hc] at h
    cases h
    exact (mem_assign_colors _ _ _ _ _ _ _).mpr (Or.inl hm)

theorem step_ok_new (n : Nat) (getExecutors ecc : Nat → List Nat) (d : List Nat)
    (asg asg1 : Assignment)
    (h : ColorAssigner.assign_colors_to_cache_isolation_domain n getExecutors ecc d asg =
      .ok asg1)
    (spc : SystemPageColor) (m : Nat) (hm : m ∈ asg1 spc) :
    m ∈ asg spc ∨
      (m ∈ d ∧ spc.cpu ∈ requiredCpus getExecutors ecc m ∧ asg spc = ∅ ∧
        spc.cpu_page_color < n) := by
  unfold ColorAssigner.assign_colors_to_cache_isolation_domain at h
  cases hc : collectDomainColors n getExecutors ecc asg d with
  | error e => rw [hc] at h; cases h
  | ok pool =>
    rw [hc] at h
    cases h
    rcases (mem_assign_colors _ _ _ _ _ _ _).mp hm with h2 | ⟨hpool, hd, hcpu⟩
    · exact Or.inl h2
    · obtain ⟨hempty, hlt⟩ := collectDomainColors_ok_free _ _ _ _ _ _ hc spc hpool
      exact Or.inr ⟨hd, hcpu, hempty, hlt⟩

theorem step_ok_gain (n : Nat) (getExecutors ecc : Nat → List Nat) (d : List Nat)
    (asg asg1 : Assignment)
    (h : ColorAssigner.assign_colors_to_cache_isolation_domain n getExecutors ecc d asg =
      .ok asg1)
    (mc : Nat) (hmc : mc ∈ d) (hreq : requiredCpus getExecutors ecc mc ≠ []) :
    ∃ spc : SystemPageColor, spc.cpu_page_color < n ∧
      spc.cpu ∈ requiredCpus getExecutors ecc mc ∧ mc ∈ asg1 spc := by
  unfold ColorAssigner.assign_colors_to_cache_isolation_domain at h
  cases hc : collectDomainColors n getExecutors ecc asg d with
  | error e => rw [hc] at h; cases h
  | ok pool =>
    rw [hc] at h
    cases h
    obtain ⟨p, hp, hall⟩ := collectDomainColors_ok_member _ _ _ _ _ _ _ hc hmc
    have hex : ∃ cpu0, cpu0 ∈ requiredCpus getExecutors ecc mc := by
      cases hcpus : requiredCpus getExecutors ecc mc with
      | nil => exact absurd hcpus hreq
      | cons a l => exact ⟨a, by simp⟩
    obtain ⟨cpu0, hcpu0⟩ := hex
    refine ⟨⟨cpu0, p⟩, hp, hcpu0, ?_⟩
    exact (mem_assign_colors _ _ _ _ _ _ _).mpr
      (Or.inr ⟨hall cpu0 hcpu0, hmc, hcpu0⟩)

theorem step_err (n : Nat) (getExecutors ecc : Nat → List Nat) (d : List Nat)
    (asg : Assignment) (e : ModelError)
    (h : ColorAssigner.assign_colors_to_cache_isolation_domain n getExecutors ecc d asg =
      .error e) :
    e = .colorExhaustion := by
  unfold ColorAssigner.assign_colors_to_cache_isolation_domain at h
  cases hc : collectDomainColors n getExecutors ecc asg d with
  | error e2 => rw [hc] at h; cases h; exact collectDomainColors_err _ _ _ _ _ _ hc
  | ok pool => rw [hc] at h; cases h

theorem runDomains_ok_mono (n : Nat) (getExecutors ecc : Nat → List Nat)
    (ds : List (List Nat)) (asg asg1 : Assignment)
    (h : ColorAssigner.runDomains n getExecutors ecc ds asg = .ok asg1)
    (spc : SystemPageColor) (m : Nat) (hm : m ∈ asg spc) : m ∈ asg1 spc := by
  induction ds generalizing asg with
  | nil => unfold ColorAssigner.runDomains at h; cases h; exact hm
  | cons d rest ih =>
    unfold ColorAssigner.runDomains at h
    cases hs : ColorAssigner.assign_colors_to_cache_isolation_domain n getExecutors ecc d asg with
    | error e => rw [hs] at h; cases h
    | ok asg2 =>
      rw [hs] at h
      exact ih asg2 h (step_ok_mono _ _ _ _ _ _ hs spc m hm)

theorem runDomains_empty_before_new (n : Nat) (getExecutors ecc : Nat → List Nat)
    (ds : List (List Nat)) (asg asg1 : Assignment)
    (h : ColorAssigner.runDomains n getExecutors ecc ds asg = .ok asg1)
    (spc : SystemPageColor) (m : Nat) (hm : m ∈ asg1 spc) (hnot : m ∉ asg spc) :
    asg spc = ∅ := by
  induction ds generalizing asg with
  | nil => unfold ColorAssigner.runDomains at h; cases h; exact absurd hm hnot
  | cons d rest ih =>
    unfold ColorAssigner.runDomains at h
    cases hs : ColorAssigner.assign_colors_to_cache_isolation_domain n getExecutors ecc d asg with
    | error e => rw [hs] at h; cases h
    | ok asg2 =>
      rw [hs] at h
      by_cases hm2 : m ∈ asg2 spc
      · rcases step_ok_new _ _ _ _ _ _ hs spc m hm2 with h2 | ⟨_, _, hempty, _⟩
        · exact absurd h2 hnot
        · exact hempty
      · have hempty2 : asg2 spc = ∅ := ih asg2 h hm2
        rw [Finset.eq_empty_iff_forall_not_mem]
        intro x hx
        have := step_ok_mono _ _ _ _ _ _ hs spc x hx
        rw [hempty2] at this
        cases this

theorem runDomains_shared_same_domain (n : Nat) (getExecutors ecc : Nat → List Nat)
    (ds : List (List Nat)) (asg asg1 : Assignment)
    (h : ColorAssigner.runDomains n getExecutors ecc ds asg = .ok asg1)
    (spc : SystemPageColor) (m1 m2 : Nat)
    (h1 : m1 ∈ asg1 spc) (h2 : m2 ∈ asg1 spc)
    (hn1 : m1 ∉ asg spc) (hn2 : m2 ∉ asg spc) :
    ∃ k, ∃ hk : k < ds.length, m1 ∈ ds.get ⟨k, hk⟩ ∧ m2 ∈ ds.get ⟨k, hk⟩ := by
  induction ds generalizing asg with
  | nil => unfold ColorAssigner.runDomains at h; cases h; exact absurd h1 hn1
  | cons d rest ih =>
    unfold ColorAssigner.runDomains at h
    cases hs : ColorAssigner.assign_colors_to_cache_isolation_domain n getExecutors ecc d asg with
    | error e => rw [hs] at h; cases h
    | ok asg2 =>
      rw [hs] at h
      by_cases hm1 : m1 ∈ asg2 spc
      · by_cases hm2 : m2 ∈ asg2 spc
        · rcases step_ok_new _ _ _ _ _ _ hs spc m1 hm1 with hc1 | ⟨hd1, _, _, _⟩
          · exact absurd hc1 hn1
          · rcases step_ok_new _ _ _ _ _ _ hs spc m2 hm2 with hc2 | ⟨hd2, _, _, _⟩
            · exact absurd hc2 hn2
            · exact ⟨0, by simp, hd1, hd2⟩
        · have := runDomains_empty_before_new _ _ _ _ _ _ h spc m2 h2 hm2
          rw [Finset.eq_empty_iff_forall_not_mem] at this
          exact absurd hm1 (this m1)
      · by_cases hm2 : m2 ∈ asg2 spc
        · have := runDomains_empty_before_new _ _ _ _ _ _ h spc m1 h1 hm1
          rw [Finset.eq_empty_iff_forall_not_mem] at this
          exact absurd hm2 (this m2)
        · obtain ⟨k, hk, hk1, hk2⟩ := ih asg2 h hm1 hm2
          exact ⟨k + 1, by simpa using Nat.succ_lt_succ hk, by simpa using hk1,
            by simpa using hk2⟩

theorem runDomains_guard (n : Nat) (getExecutors ecc : Nat → List Nat)
    (ds : List (List Nat)) (asg asg1 : Assignment)
    (h : ColorAssigner.runDomains n getExecutors ecc ds asg = .ok asg1)
    (hinv : ∀ spc m, m ∈ asg spc → spc.cpu ∈ requiredCpus getExecutors ecc m)
    (spc : SystemPageColor) (m : Nat) (hm : m ∈ asg1 spc) :
    spc.cpu ∈ requiredCpus getExecutors ecc m := by
  induction ds generalizing asg with
  | nil => unfold ColorAssigner.runDomains at h; cases h; exact hinv spc m hm
  | cons d rest ih =>
    unfold ColorAssigner.runDomains at h
    cases hs : ColorAssigner.assign_colors_to_cache_isolation_domain n getExecutors ecc d asg with
    | error e => rw [hs] at h; cases h
    | ok asg2 =>
      rw [hs] at h
      refine ih asg2 h ?_
      intro spc2 m2 hm2
      rcases step_ok_new _ _ _ _ _ _ hs spc2 m2 hm2 with h2 | ⟨_, hcpu, _, _⟩
      · exact hinv spc2 m2 h2
      · exact hcpu

theorem runDomains_gain (n : Nat) (getExecutors ecc : Nat → List Nat)
    (ds : List (List Nat)) (asg asg1 : Assignment)
    (h : ColorAssigner.runDomains n getExecutors ecc ds asg = .ok asg1)
    (mc : Nat) (k : Nat) (hk : k < ds.length) (hmc : mc ∈ ds.get ⟨k, hk⟩)
    (hreq : requiredCpus getExecutors ecc mc ≠ []) :
    ∃ spc : SystemPageColor, spc.cpu_page_color < n ∧
      spc.cpu ∈ requiredCpus getExecutors ecc mc ∧ mc ∈ asg1 spc := by
  induction ds generalizing asg k with
  | nil => simp at hk
  | cons d rest ih =>
    unfold ColorAssigner.runDomains at h
    cases hs : ColorAssigner.assign_colors_to_cache_isolation_domain n getExecutors ecc d asg with
    | error e => rw [hs] at h; cases h
    | ok asg2 =>
      rw [hs] at h
      cases k with
      | zero =>
        obtain ⟨spc, hlt, hcpu, hmem⟩ :=
          step_ok_gain _ _ _ _ _ _ hs mc (by simpa using hmc) hreq
        exact ⟨spc, hlt, hcpu, runDomains_ok_mono _ _ _ _ _ _ h spc mc hmem⟩
      | succ k =>
        exact ih asg2 h k (by simpa using Nat.lt_of_succ_lt_succ hk) (by simpa using hmc)

theorem runDomains_err (n : Nat) (getExecutors ecc : Nat → List Nat)
    (ds : List (List Nat)) (asg : Assignment) (e : ModelError)
    (h : ColorAssigner.runDomains n getExecutors ecc ds asg = .error e) :
    e = .colorExhaustion := by
  induction ds generalizing asg with
  | nil => unfold ColorAssigner.runDomains at h; cases h
  | cons d rest ih =>
    unfold ColorAssigner.runDomains at h
    cases hs : ColorAssigner.assign_colors_to_cache_isolation_domain n getExecutors ecc d asg with
    | error e2 => rw [hs] at h; cases h; exact step_err _ _ _ _ _ _ hs
    | ok asg2 => rw [hs] at h; exact ih asg2 h

theorem count_membership_foldl (domains : List (List Nat)) (mc : Nat) (a : Nat) :
    domains.foldl (fun acc d => if mc ∈ d then acc + 1 else acc) a =
      a + domains.countP (fun d => decide (mc ∈ d)) := by
  induction domains generalizing a with
  | nil => simp
  | cons d rest ih =>
    simp only [List.foldl_cons, List.countP_cons]
    by_cases h : mc ∈ d
    · rw [if_pos h, ih]
      simp [h]
      omega
    · rw [if_neg h, ih]
      simp [h]

theorem count_membership_eq_countP (domains : List (List Nat)) (mc : Nat) :
    count_membership domains mc = domains.countP (fun d => decide (mc ∈ d)) := by
  unfold count_membership
  rw [count_membership_foldl]
  omega

theorem exists_domain_of_count_pos (domains : List (List Nat)) (mc : Nat)
    (h : 0 < count_membership domains mc) :
    ∃ k, ∃ hk : k < domains.length, mc ∈ domains.get ⟨k, hk⟩ := by
  rw [count_membership_eq_countP, List.countP_pos] at h
  obtain ⟨d, hd, hmc⟩ := h
  obtain ⟨⟨k, hk⟩, rfl⟩ := List.mem_iff_get.mp hd
  exact ⟨k, hk, by simpa using hmc⟩

theorem countP_ge_two_of_two_mem (l : List (List Nat)) (mc : Nat) (i j : Nat)
    (hi : i < l.length) (hj : j < l.length) (hij : i ≠ j)
    (hmi : mc ∈ l.get ⟨i, hi⟩) (hmj : mc ∈ l.get ⟨j, hj⟩) :
    2 ≤ l.countP (fun d => decide (mc ∈ d)) := by
  induction l generalizing i j with
  | nil => simp at hi
  | cons d rest ih =>
    cases i with
    | zero =>
      cases j with
      | zero => omega
      | succ j =>
        have h1 : mc ∈ d := by simpa using hmi
        have hj2 : j < rest.length := by simpa using Nat.lt_of_succ_lt_succ hj
        have h2 : mc ∈ rest.get ⟨j, hj2⟩ := by simpa using hmj
        have hpos : 0 < rest.countP (fun d0 => decide (mc ∈ d0)) := by
          rw [List.countP_pos]
          exact ⟨rest.get ⟨j, hj2⟩, List.get_mem _ _ _, by simpa using h2⟩
        have hstep : (d :: rest).countP (fun d0 => decide (mc ∈ d0)) =
            rest.countP (fun d0 => decide (mc ∈ d0)) + 1 := by
          rw [List.countP_cons]
          simp [h1]
        rw [hstep]
        omega
    | succ i =>
      cases j with
      | zero =>
        have h1 : mc ∈ d := by simpa using hmj
        have hi2 : i < rest.length := by simpa using Nat.lt_of_succ_lt_succ hi
        have h2 : mc ∈ rest.get ⟨i, hi2⟩ := by simpa using hmi
        have hpos : 0 < rest.countP (fun d0 => decide (mc ∈ d0)) := by
          rw [List.countP_pos]
          exact ⟨rest.get ⟨i, hi2⟩, List.get_mem _ _ _, by simpa using h2⟩
        have hstep : (d :: rest).countP (fun d0 => decide (mc ∈ d0)) =
            rest.countP (fun d0 => decide (mc ∈ d0)) + 1 := by
          rw [List.countP_cons]
          simp [h1]
        rw [hstep]
        omega
      | succ j =>
        have hi2 : i < rest.length := by simpa using Nat.lt_of_succ_lt_succ hi
        have hj2 : j < rest.length := by simpa using Nat.lt_of_succ_lt_succ hj
        have := ih i j hi2 hj2 (by omega) (by simpa using hmi) (by simpa using hmj)
        rw [List.countP_cons]
        omega

/-- `ColorAssigner._enforce_assignment`: walk the assignment dictionary (its
keys, in order, are the list of all system page colors) and append each color
to the accumulated color list of every memory consumer reserving it. -/
def ColorAssigner.enforce_assignment (asg : Assignment) :
    List SystemPageColor → (Nat → List SystemPageColor) → Nat → List SystemPageColor
  | [], st => st
  | c :: rest, st =>
    ColorAssigner.enforce_assignment asg rest
      (fun mc => if mc ∈ asg c then st mc ++ [c] else st mc)

theorem enforce_assignment_eq (asg : Assignment) (colors : List SystemPageColor)
    (st : Nat → List SystemPageColor) (mc : Nat) :
    ColorAssigner.enforce_assignment asg colors st mc =
      st mc ++ colors.filter (fun c => decide (mc ∈ asg c)) := by
  induction colors generalizing st with
  | nil => simp [ColorAssigner.enforce_assignment]
  | cons c rest ih =>
    unfold ColorAssigner.enforce_assignment
    rw [ih]
    by_cases h : mc ∈ asg c
    · simp [h]
    · simp [h]

/-- C1: when `get_assignment_by_cache_isolation_domains` succeeds under the
strategy's preconditions (every consumer has a nonempty required CPU list
drawn from the hardware's CPU cores), then after the result is applied every
memory consumer holds at least one system page color; two consumers in
different cache isolation domains never share a system page color; and two
consumers of the same domain share a color only if that color's CPU is among
both consumers' required CPU lists. -/
theorem c1_cache_isolation_domain_invariants (hw : Hardware) (consumers : List Nat)
    (domains : List (List Nat)) (getExecutors ecc : Nat → List Nat) (n : Nat)
    (asg : Assignment)
    (hn : hw.get_number_of_cpu_page_colors = .ok n)
    (hok : ColorAssigner.get_assignment_by_cache_isolation_domains hw consumers domains
      getExecutors ecc = .ok asg)
    (hreq : ∀ mc ∈ consumers, requiredCpus getExecutors ecc mc ≠ [])
    (hcpu : ∀ mc ∈ consumers, ∀ cpu ∈ requiredCpus getExecutors ecc mc,
      cpu ∈ hw.cpu_cores) :
    (∀ mc ∈ consumers,
      0 < (ColorAssigner.enforce_assignment asg (allSystemPageColors hw.cpu_cores n)
            (fun _ => []) mc).length)
    ∧ (∀ mc1 ∈ consumers, ∀ mc2 ∈ consumers,
        ∀ i j, ∀ hi : i < domains.length, ∀ hj : j < domains.length, i ≠ j →
        mc1 ∈ domains.get ⟨i, hi⟩ → mc2 ∈ domains.get ⟨j, hj⟩ →
        ∀ c, ¬ (mc1 ∈ asg c ∧ mc2 ∈ asg c))
    ∧ (∀ d ∈ domains, ∀ mc1 ∈ d, ∀ mc2 ∈ d, ∀ c, mc1 ∈ asg c → mc2 ∈ asg c →
        c.cpu ∈ requiredCpus getExecutors ecc mc1 ∧
        c.cpu ∈ requiredCpus getExecutors ecc mc2) := by
  unfold ColorAssigner.get_assignment_by_cache_isolation_domains at hok
  by_cases h0 : consumers.any (fun mc => count_membership domains mc == 0)
  · rw [if_pos h0] at hok
    cases hok
  · rw [if_neg h0] at hok
    by_cases h1 : consumers.all (fun mc => count_membership domains mc == 1)
    · rw [if_neg (not_not_intro h1)] at hok
      rw [hn] at hok
      have hrun : ColorAssigner.runDomains n getExecutors ecc domains emptyAssignment =
          .ok asg := hok
      have hcount : ∀ mc ∈ consumers, count_membership domains mc = 1 := by
        intro mc hmc
        have := (List.all_eq_true.mp h1) mc hmc
        simpa using this
      refine ⟨?_, ?_, ?_⟩
      · intro mc hmc
        obtain ⟨k, hk, hkmem⟩ := exists_domain_of_count_pos domains mc
          (by rw [hcount mc hmc]; omega)
        obtain ⟨spc, hlt, hspccpu, hspc⟩ :=
          runDomains_gain n getExecutors ecc domains emptyAssignment asg hrun mc k hk hkmem
            (hreq mc hmc)
        have hmemall : spc ∈ allSystemPageColors hw.cpu_cores n :=
          (mem_allSystemPageColors _ _ _).mpr ⟨hcpu mc hmc spc.cpu hspccpu, hlt⟩
        rw [enforce_assignment_eq]
        have hfil : spc ∈ (allSystemPageColors hw.cpu_cores n).filter
            (fun c => decide (mc ∈ asg c)) :=
          List.mem_filter.mpr ⟨hmemall, by simpa using hspc⟩
        have hne := List.ne_nil_of_mem hfil
        simp only [List.nil_append]
        exact List.length_pos.mpr hne
      · intro mc1 hmc1 mc2 hmc2 i j hi hj hij hd1 hd2 c ⟨hc1, hc2⟩
        obtain ⟨k, hk, hk1, hk2⟩ := runDomains_shared_same_domain n getExecutors ecc
          domains emptyAssignment asg hrun c mc1 mc2 hc1 hc2
          (by simp [emptyAssignment]) (by simp [emptyAssignment])
        have hcnt1 := hcount mc1 hmc1
        rw [count_membership_eq_countP] at hcnt1
        have hik : i = k := by
          by_contra hne
          have := countP_ge_two_of_two_mem domains mc1 i k hi hk hne hd1 hk1
          omega
        have hcnt2 := hcount mc2 hmc2
        rw [count_membership_eq_countP] at hcnt2
        have hjk : j = k := by
          by_contra hne
          have := countP_ge_two_of_two_mem domains mc2 j k hj hk hne hd2 hk2
          omega
        exact hij (hik.trans hjk.symm)
      · intro d hd mc1 hmc1 mc2 hmc2 c hc1 hc2
        have hguard := runDomains_guard n getExecutors ecc domains emptyAssignment asg hrun
          (by intro spc m hm; simp [emptyAssignment] at hm)
        exact ⟨hguard c mc1 hc1, hguard c mc2 hc2⟩
    · rw [if_pos h1] at hok
      cases hok

def c1GetExecutors : Nat → List Nat := fun mc => [mc]

def c1Ecc : Nat → List Nat := fun _ => [0, 1]

def c1Asg : Assignment :=
  match ColorAssigner.get_assignment_by_cache_isolation_domains c2Hw [1, 2] [[1], [2]]
      c1GetExecutors c1Ecc with
  | .ok a => a
  | .error _ => emptyAssignment

theorem c1_witness :
    0 < (ColorAssigner.enforce_assignment c1Asg (allSystemPageColors c2Hw.cpu_cores 2)
          (fun _ => []) 1).length :=
  (c1_cache_isolation_domain_invariants c2Hw [1, 2] [[1], [2]] c1GetExecutors c1Ecc 2
    c1Asg rfl rfl (by decide) (by decide)).1 1 (by decide)

theorem colorsLoop_err (levels : List (List Cache)) (acc : Nat) (e : ModelError)
    (h : colorsLoop levels acc = .error e) : e = .indexError := by
  induction levels generalizing acc with
  | nil => unfold colorsLoop at h; cases h
  | cons lvl rest ih =>
    unfold colorsLoop at h
    cases lvl with
    | nil => cases h; rfl
    | cons c tl =>
      have h2 : (if c.flushed then colorsLoop rest c.colors else .ok c.colors) =
          .error e := h
      by_cases hfl : c.flushed
      · rw [if_pos hfl] at h2
        exact ih _ h2
      · rw [if_neg hfl] at h2
        cases h2

theorem get_number_of_cpu_page_colors_err (hw : Hardware) (e : ModelError)
    (h : hw.get_number_of_cpu_page_colors = .error e) :
    e = .indexError ∨ e = .assertionError := by
  unfold Hardware.get_number_of_cpu_page_colors at h
  cases hl : colorsLoop hw.caches 0 with
  | error e2 =>
    rw [hl] at h
    cases h
    exact Or.inl (colorsLoop_err _ _ _ hl)
  | ok n =>
    rw [hl] at h
    have h2 : (if 0 < n then (.ok n : Except ModelError Nat)
        else .error .assertionError) = .error e := h
    by_cases hn : 0 < n
    · rw [if_pos hn] at h2; cases h2
    · rw [if_neg hn] at h2; cases h2; exact Or.inr rfl

/-- C5: before any color is reserved, the cache-isolation-domain strategy
counts each consumer's memberships over the given isolation domains and fails
with the domain-membership precondition error — not with exhaustion — if any
consumer is in zero domains or in two or more; any error raised once every
count is exactly one is never the membership error. -/
theorem c5_domain_membership_check (hw : Hardware) (consumers : List Nat)
    (domains : List (List Nat)) (getExecutors ecc : Nat → List Nat) :
    ((∃ mc ∈ consumers, count_membership domains mc = 0) →
      ColorAssigner.get_assignment_by_cache_isolation_domains hw consumers domains
        getExecutors ecc = .error .domainMembershipError)
    ∧ ((∃ mc ∈ consumers, count_membership domains mc ≠ 1) →
      ColorAssigner.get_assignment_by_cache_isolation_domains hw consumers domains
        getExecutors ecc = .error .domainMembershipError)
    ∧ ((∀ mc ∈ consumers, count_membership domains mc = 1) →
      ∀ e, ColorAssigner.get_assignment_by_cache_isolation_domains hw consumers domains
        getExecutors ecc = .error e → e ≠ .domainMembershipError) := by
  refine ⟨?_, ?_, ?_⟩
  · rintro ⟨mc, hmc, hcnt⟩
    unfold ColorAssigner.get_assignment_by_cache_isolation_domains
    rw [if_pos ?_]
    rw [List.any_eq_true]
    exact ⟨mc, hmc, by simp [hcnt]⟩
  · rintro ⟨mc, hmc, hcnt⟩
    unfold ColorAssigner.get_assignment_by_cache_isolation_domains
    by_cases h0 : consumers.any (fun mc => count_membership domains mc == 0)
    · rw [if_pos h0]
    · rw [if_neg h0]
      rw [if_pos ?_]
      intro hall
      rw [List.all_eq_true] at hall
      have := hall mc hmc
      simp at this
      exact hcnt this
  · intro hall e h he
    subst he
    unfold ColorAssigner.get_assignment_by_cache_isolation_domains at h
    rw [if_neg ?_] at h
    · rw [if_neg ?_] at h
      · cases hn : hw.get_number_of_cpu_page_colors with
        | error e2 =>
          rw [hn] at h
          cases h
          rcases get_number_of_cpu_page_colors_err hw _ hn with h2 | h2 <;> cases h2
        | ok n =>
          rw [hn] at h
          have := runDomains_err n getExecutors ecc domains emptyAssignment _ h
          cases this
      · rw [not_not]
        rw [List.all_eq_true]
        intro mc hmc
        simp [hall mc hmc]
    · intro hany
      rw [List.any_eq_true] at hany
      obtain ⟨mc, hmc, hcnt⟩ := hany
      simp at hcnt
      rw [hall mc hmc] at hcnt
      cases hcnt

def c5BadConsumers : List Nat := [1, 2]

theorem c5_witness :
    ColorAssigner.get_assignment_by_cache_isolation_domains c2Hw c5BadConsumers [[1]]
      c1GetExecutors c1Ecc = .error .domainMembershipError :=
  (c5_domain_membership_check c2Hw c5BadConsumers [[1]] c1GetExecutors c1Ecc).1
    ⟨2, by decide, by decide⟩

/-- State of `assign_color_by_interference_domains` during its run: the
accumulated color lists of all memory consumers (`mcColors`), the
`color_usage_counter_table`, and the pending pool `all_memory_consumers_values`. -/
structure InterfState where
  mcColors : Nat → List SystemPageColor
  table : SystemPageColor → Int
  pending : List Nat

/-- Generic loop over a list of items threading a state and propagating the
first raised exception (which carries the state at raise time, as a Python
exception leaves all prior mutations in place). -/
def runSteps {σ α ε : Type} (f : σ → α → Except ε σ) : σ → List α → Except ε σ
  | st, [] => .ok st
  | st, x :: xs =>
    match f st x with
    | .error e => .error e
    | .ok st1 => runSteps f st1 xs

/-- `get_next_assignable_color` (inner function of
`assign_color_by_interference_domains`): the first color of the usage table
(whose keys are all system page colors, in order) with usage counter zero. -/
def get_next_assignable_color (allColors : List SystemPageColor)
    (table : SystemPageColor → Int) : Option SystemPageColor :=
  allColors.find? (fun c => table c == 0)

/-- One member update of the interference-domain loop: decrement the counter
of a previously held single color, append the assignable color, increment its
counter, then remove the member from the pending pool
(`list.remove` raises `ValueError` when the member is absent). -/
def interfMemberStep (assignable : SystemPageColor) (st : InterfState) (mc : Nat) :
    Except (ModelError × InterfState) InterfState :=
  let t1 : SystemPageColor → Int :=
    match st.mcColors mc with
    | [c] => fun spc => if spc = c then st.table spc - 1 else st.table spc
    | _ => st.table
  let colors1 : Nat → List SystemPageColor :=
    fun m => if m = mc then st.mcColors mc ++ [assignable] else st.mcColors m
  let t2 : SystemPageColor → Int :=
    fun spc => if spc = assignable then t1 spc + 1 else t1 spc
  if mc ∈ st.pending then
    .ok ⟨colors1, t2, st.pending.erase mc⟩
  else
    .error (.valueError, ⟨colors1, t2, st.pending⟩)

/-- One interference domain: pick the next assignable color (exhaustion if the
usage table has no zero entry), then update every member. -/
def interfDomainStep (allColors : List SystemPageColor) (st : InterfState)
    (domain : List Nat) : Except (ModelError × InterfState) InterfState :=
  match get_next_assignable_color allColors st.table with
  | none => .error (.colorExhaustion, st)
  | some assignable => runSteps (interfMemberStep assignable) st domain

/-- One step of the trailing loop: the remaining pending consumer gets its own
next assignable color. -/
def interfRestStep (allColors : List SystemPageColor) (st : InterfState) (mc : Nat) :
    Except (ModelError × InterfState) InterfState :=
  match get_next_assignable_color allColors st.table with
  | none => .error (.colorExhaustion, st)
  | some assignable =>
    .ok ⟨fun m => if m = mc then st.mcColors mc ++ [assignable] else st.mcColors m,
         fun spc => if spc = assignable then st.table spc + 1 else st.table spc,
         st.pending⟩

/-- `ColorAssigner.assign_color_by_interference_domains`.  The call mutates the
consumers' color lists while it runs, so the result carries the final color
lists on success and the color lists at raise time on an exception.  The
leading assertion requires every consumer's colors to be undefined/empty. -/
def ColorAssigner.assign_color_by_interference_domains (hw : Hardware)
    (consumers : List Nat) (interference_domains : List (List Nat))
    (st0 : Nat → List SystemPageColor) :
    Except (ModelError × (Nat → List SystemPageColor)) (Nat → List SystemPageColor) :=
  if ¬ (consumers.all (fun mc => (st0 mc).isEmpty)) then
    .error (.assertionError, st0)
  else
    match hw.get_all_system_page_colors with
    | .error e => .error (e, st0)
    | .ok allColors =>
      match runSteps (interfDomainStep allColors) ⟨st0, fun _ => 0, consumers⟩
          interference_domains with
      | .error (e, st) => .error (e, st.mcColors)
      | .ok st1 =>
        match runSteps (interfRestStep allColors) st1 st1.pending with
        | .error (e, st) => .error (e, st.mcColors)
        | .ok st2 => .ok st2.mcColors

/-- Forget the carried state of an exception, keeping the error kind: the
observable outcome of a call (its return value or the exception raised). -/
def dropState {σ α : Type} : Except (ModelError × σ) α → Except ModelError α
  | .ok a => .ok a
  | .error (e, _) => .error e

/-- Modelled from the spec (specification text of the interference-domain
strategy, used as the reference side of the refinement in C7): assign the
picked color to a member, overwriting any prior colors and adjusting the usage
counters, and remove the member from the pending pool. -/
def specMemberStep (assignable : SystemPageColor) (st : InterfState) (mc : Nat) :
    InterfState :=
  ⟨fun m => if m = mc then [assignable] else st.mcColors m,
   fun spc =>
     (if spc = assignable
       then st.table spc - (((st.mcColors mc).filter (fun c0 => decide (c0 = spc))).length : Int) + 1
       else st.table spc - (((st.mcColors mc).filter (fun c0 => decide (c0 = spc))).length : Int)),
   st.pending.erase mc⟩

/-- Modelled from the spec: for each domain, in caller-given order, pick the
lowest-indexed unused system page color (usage counter zero), else fail with
exhaustion, and assign it to every member of the domain. -/
def specDomainStep (allColors : List SystemPageColor) (st : InterfState)
    (domain : List Nat) : Except ModelError InterfState :=
  match get_next_assignable_color allColors st.table with
  | none => .error .colorExhaustion
  | some assignable => .ok (domain.foldl (specMemberStep assignable) st)

/-- Modelled from the spec: a remaining unassigned consumer gets its own
lowest-indexed unused color. -/
def specRestStep (allColors : List SystemPageColor) (st : InterfState) (mc : Nat) :
    Except ModelError InterfState :=
  match get_next_assignable_color allColors st.table with
  | none => .error .colorExhaustion
  | some assignable =>
    .ok ⟨fun m => if m = mc then [assignable] else st.mcColors m,
         fun spc => if spc = assignable then st.table spc + 1 else st.table spc,
         st.pending⟩

/-- Modelled from the spec: the interference-domain assignment as described by
the specification text (consumers unassigned at call time; process the domain
list in order; then assign the remaining pending consumers their own colors;
exhaustion whenever no unused color remains when one is needed). -/
def spec_interference_assignment (allColors : List SystemPageColor)
    (consumers : List Nat) (domains : List (List Nat))
    (st0 : Nat → List SystemPageColor) :
    Except ModelError (Nat → List SystemPageColor) :=
  match runSteps (specDomainStep allColors) ⟨st0, fun _ => 0, consumers⟩ domains with
  | .error e => .error e
  | .ok st1 =>
    match runSteps (specRestStep allColors) st1 st1.pending with
    | .error e => .error e
    | .ok st2 => .ok st2.mcColors

theorem specMemberFold_pending_sub (assignable : SystemPageColor) (d : List Nat)
    (st : InterfState) (m : Nat)
    (hm : m ∈ (d.foldl (specMemberStep assignable) st).pending) : m ∈ st.pending := by
  induction d generalizing st with
  | nil => exact hm
  | cons mc rest ih =>
    rw [List.foldl_cons] at hm
    exact List.mem_of_mem_erase (ih _ hm)

theorem specMemberFold_pending_keep (assignable : SystemPageColor) (d : List Nat)
    (st : InterfState) (m : Nat) (hm : m ∈ st.pending) (hnot : m ∉ d) :
    m ∈ (d.foldl (specMemberStep assignable) st).pending := by
  induction d generalizing st with
  | nil => exact hm
  | cons mc rest ih =>
    rw [List.foldl_cons]
    refine ih _ ?_ (fun hc => hnot (List.mem_cons_of_mem _ hc))
    show m ∈ st.pending.erase mc
    exact (List.mem_erase_of_ne (fun hc => hnot (by rw [hc]; simp))).mpr hm

theorem specMemberFold_colors_keep (assignable : SystemPageColor) (d : List Nat)
    (st : InterfState) (m : Nat) (hnot : m ∉ d) :
    (d.foldl (specMemberStep assignable) st).mcColors m = st.mcColors m := by
  induction d generalizing st with
  | nil => rfl
  | cons mc rest ih =>
    rw [List.foldl_cons]
    rw [ih _ (fun hc => hnot (List.mem_cons_of_mem _ hc))]
    show (if m = mc then _ else st.mcColors m) = st.mcColors m
    rw [if_neg (fun hc => hnot (by rw [hc]; simp))]

theorem specMemberFold_nodup (assignable : SystemPageColor) (d : List Nat)
    (st : InterfState) (hnd : st.pending.Nodup) :
    (d.foldl (specMemberStep assignable) st).pending.Nodup := by
  induction d generalizing st with
  | nil => exact hnd
  | cons mc rest ih =>
    rw [List.foldl_cons]
    exact ih _ (List.Nodup.erase mc hnd)

theorem specMemberFold_pending_empty (assignable : SystemPageColor) (d : List Nat)
    (st : InterfState) (hP1 : ∀ m ∈ st.pending, st.mcColors m = [])
    (hnd : st.pending.Nodup) (m : Nat)
    (hm : m ∈ (d.foldl (specMemberStep assignable) st).pending) :
    (d.foldl (specMemberStep assignable) st).mcColors m = [] := by
  induction d generalizing st with
  | nil => exact hP1 m hm
  | cons mc rest ih =>
    rw [List.foldl_cons] at hm ⊢
    refine ih _ ?_ (List.Nodup.erase mc hnd) hm
    intro m2 hm2
    have hm2e : m2 ≠ mc ∧ m2 ∈ st.pending := (List.Nodup.mem_erase_iff hnd).mp hm2
    show (if m2 = mc then _ else st.mcColors m2) = []
    rw [if_neg hm2e.1]
    exact hP1 m2 hm2e.2

theorem runSteps_cons {s a e : Type} (f : s → a → Except e s) (st : s) (x : a)
    (xs : List a) :
    runSteps f st (x :: xs) =
      match f st x with
      | .error e0 => .error e0
      | .ok st1 => runSteps f st1 xs := by
  cases h : f st x with
  | error e0 => simp [runSteps, h]
  | ok st1 => simp [runSteps, h]

theorem interfMemberLoop_eq (assignable : SystemPageColor) (d : List Nat)
    (st : InterfState)
    (hP1 : ∀ m ∈ st.pending, st.mcColors m = [])
    (hsub : ∀ m ∈ d, m ∈ st.pending)
    (hnd : d.Nodup) (hpnd : st.pending.Nodup) :
    runSteps (interfMemberStep assignable) st d =
      .ok (d.foldl (specMemberStep assignable) st) := by
  induction d generalizing st with
  | nil => rfl
  | cons mc rest ih =>
    have hmcp : mc ∈ st.pending := hsub mc (by simp)
    have hmc0 : st.mcColors mc = [] := hP1 mc hmcp
    have hstep : interfMemberStep assignable st mc =
        .ok (specMemberStep assignable st mc) := by
      unfold interfMemberStep specMemberStep
      rw [if_pos hmcp]
      congr 1
      refine InterfState.mk.injEq _ _ _ _ _ _ |>.mpr ⟨?_, ?_, rfl⟩
      · funext m
        by_cases hm : m = mc
        · simp [hm, hmc0]
        · simp [hm]
      · funext spc
        rw [hmc0]
        simp
    rw [runSteps_cons, hstep, List.foldl_cons]
    have hnd2 : rest.Nodup := (List.nodup_cons.mp hnd).2
    have hmcnot : mc ∉ rest := (List.nodup_cons.mp hnd).1
    refine ih (specMemberStep assignable st mc) ?_ ?_ hnd2 ?_
    · intro m hm
      have hme : m ≠ mc ∧ m ∈ st.pending := (List.Nodup.mem_erase_iff hpnd).mp hm
      show (if m = mc then _ else st.mcColors m) = []
      rw [if_neg hme.1]
      exact hP1 m hme.2
    · intro m hm
      have hmne : m ≠ mc := fun hc => hmcnot (hc ▸ hm)
      show m ∈ st.pending.erase mc
      exact (List.mem_erase_of_ne hmne).mpr (hsub m (List.mem_cons_of_mem _ hm))
    · exact List.Nodup.erase mc hpnd

theorem interfDomainLoop_eq (A : List SystemPageColor) (domains : List (List Nat))
    (st : InterfState)
    (hP1 : ∀ m ∈ st.pending, st.mcColors m = [])
    (hP2 : ∀ d ∈ domains, ∀ m ∈ d, m ∈ st.pending)
    (hdisj : List.Pairwise (fun d1 d2 => ∀ m ∈ d1, m ∉ d2) domains)
    (hdnd : ∀ d ∈ domains, d.Nodup)
    (hpnd : st.pending.Nodup) :
    dropState (runSteps (interfDomainStep A) st domains) =
      runSteps (specDomainStep A) st domains
    ∧ (∀ st1, runSteps (specDomainStep A) st domains = .ok st1 →
        (∀ m ∈ st1.pending, st1.mcColors m = []) ∧ st1.pending.Nodup) := by
  induction domains generalizing st with
  | nil =>
    refine ⟨rfl, ?_⟩
    intro st1 h
    cases h
    exact ⟨hP1, hpnd⟩
  | cons d rest ih =>
    rw [runSteps_cons (interfDomainStep A), runSteps_cons (specDomainStep A)]
    cases hfind : get_next_assignable_color A st.table with
    | none =>
      rw [show interfDomainStep A st d = .error (.colorExhaustion, st) from by
        unfold interfDomainStep; rw [hfind]]
      rw [show specDomainStep A st d = .error .colorExhaustion from by
        unfold specDomainStep; rw [hfind]]
      refine ⟨rfl, ?_⟩
      intro st1 h
      cases h
    | some a =>
      have hd_nd : d.Nodup := hdnd d (by simp)
      have hmp := interfMemberLoop_eq a d st hP1 (hP2 d (by simp)) hd_nd hpnd
      have hcode : interfDomainStep A st d = .ok (d.foldl (specMemberStep a) st) := by
        unfold interfDomainStep
        rw [hfind]
        exact hmp
      have hspec : specDomainStep A st d = .ok (d.foldl (specMemberStep a) st) := by
        unfold specDomainStep
        rw [hfind]
      rw [hcode, hspec]
      have hP1n : ∀ m ∈ (d.foldl (specMemberStep a) st).pending,
          (d.foldl (specMemberStep a) st).mcColors m = [] :=
        fun m hm => specMemberFold_pending_empty a d st hP1 hpnd m hm
      have hP2n : ∀ d2 ∈ rest, ∀ m ∈ d2, m ∈ (d.foldl (specMemberStep a) st).pending := by
        intro d2 hd2 m hm
        have hmnot : m ∉ d := by
          intro hc
          exact ((List.pairwise_cons.mp hdisj).1 d2 hd2 m hc) hm
        exact specMemberFold_pending_keep a d st m
          (hP2 d2 (List.mem_cons_of_mem _ hd2) m hm) hmnot
      have hdisjn := (List.pairwise_cons.mp hdisj).2
      have hdndn : ∀ d2 ∈ rest, d2.Nodup := fun d2 hd2 => hdnd d2 (List.mem_cons_of_mem _ hd2)
      have hpndn := specMemberFold_nodup a d st hpnd
      constructor
      · exact (ih (d.foldl (specMemberStep a) st) hP1n hP2n hdisjn hdndn hpndn).1
      · intro stf h
        exact (ih (d.foldl (specMemberStep a) st) hP1n hP2n hdisjn hdndn hpndn).2 stf h

theorem interfRestLoop_eq (A : List SystemPageColor) (l : List Nat) (st : InterfState)
    (hP1 : ∀ m ∈ l, st.mcColors m = []) (hnd : l.Nodup) :
    dropState (runSteps (interfRestStep A) st l) = runSteps (specRestStep A) st l := by
  induction l generalizing st with
  | nil => rfl
  | cons mc rest ih =>
    rw [runSteps_cons (interfRestStep A), runSteps_cons (specRestStep A)]
    cases hfind : get_next_assignable_color A st.table with
    | none =>
      rw [show interfRestStep A st mc = .error (.colorExhaustion, st) from by
        unfold interfRestStep; rw [hfind]]
      rw [show specRestStep A st mc = .error .colorExhaustion from by
        unfold specRestStep; rw [hfind]]
      rfl
    | some a =>
      have hmc0 : st.mcColors mc = [] := hP1 mc (by simp)
      have hsteq : (⟨fun m => if m = mc then st.mcColors mc ++ [a] else st.mcColors m,
          fun spc => if spc = a then st.table spc + 1 else st.table spc,
          st.pending⟩ : InterfState) =
          ⟨fun m => if m = mc then [a] else st.mcColors m,
           fun spc => if spc = a then st.table spc + 1 else st.table spc,
           st.pending⟩ := by
        refine InterfState.mk.injEq _ _ _ _ _ _ |>.mpr ⟨?_, rfl, rfl⟩
        funext m
        by_cases hm : m = mc
        · simp [hm, hmc0]
        · simp [hm]
      have hcode : interfRestStep A st mc =
          .ok ⟨fun m => if m = mc then [a] else st.mcColors m,
               fun spc => if spc = a then st.table spc + 1 else st.table spc,
               st.pending⟩ := by
        unfold interfRestStep
        rw [hfind]
        exact congrArg Except.ok hsteq
      have hspec : specRestStep A st mc =
          .ok ⟨fun m => if m = mc then [a] else st.mcColors m,
               fun spc => if spc = a then st.table spc + 1 else st.table spc,
               st.pending⟩ := by
        unfold specRestStep
        rw [hfind]
      rw [hcode, hspec]
      have hnd2 : rest.Nodup := (List.nodup_cons.mp hnd).2
      have hmcnot : mc ∉ rest := (List.nodup_cons.mp hnd).1
      refine ih _ ?_ hnd2
      intro m hm
      have hmne : m ≠ mc := fun hc => hmcnot (hc ▸ hm)
      show (if m = mc then _ else st.mcColors m) = []
      rw [if_neg hmne]
      exact hP1 m (List.mem_cons_of_mem _ hm)

/-- C7: `assign_color_by_interference_domains` requires every consumer to have
an empty color list at call time; under the strategy's intended use (pairwise
disjoint interference domains of pairwise distinct consumers), its observable
outcome coincides with the specified behavior: each domain, in caller order,
assigns the lowest-indexed usage-zero system page color to every member and
removes those members from the pending pool; each remaining consumer then gets
its own lowest-indexed unused color; ColorExhaustion is raised whenever a
color is needed and none with usage zero remains. -/
theorem c7_interference_refinement (hw : Hardware) (consumers : List Nat)
    (domains : List (List Nat)) (st0 : Nat → List SystemPageColor)
    (A : List SystemPageColor)
    (hall : hw.get_all_system_page_colors = .ok A)
    (hconsnd : consumers.Nodup)
    (hdisj : List.Pairwise (fun d1 d2 => ∀ m ∈ d1, m ∉ d2) domains)
    (hdnd : ∀ d ∈ domains, d.Nodup)
    (hsub : ∀ d ∈ domains, ∀ m ∈ d, m ∈ consumers) :
    ((¬ ∀ mc ∈ consumers, st0 mc = []) →
      ColorAssigner.assign_color_by_interference_domains hw consumers domains st0 =
        .error (.assertionError, st0))
    ∧ ((∀ mc ∈ consumers, st0 mc = []) →
      dropState (ColorAssigner.assign_color_by_interference_domains hw consumers
        domains st0) =
        spec_interference_assignment A consumers domains st0) := by
  have hallb : (consumers.all (fun mc => (st0 mc).isEmpty)) = true ↔
      ∀ mc ∈ consumers, st0 mc = [] := by
    rw [List.all_eq_true]
    constructor
    · intro h mc hmc
      have := h mc hmc
      simpa using this
    · intro h mc hmc
      simp [h mc hmc]
  constructor
  · intro hne
    unfold ColorAssigner.assign_color_by_interference_domains
    rw [if_pos (fun hc => hne (hallb.mp hc))]
  · intro hempty
    have hP10 : ∀ m ∈ (⟨st0, fun _ => 0, consumers⟩ : InterfState).pending,
        (⟨st0, fun _ => 0, consumers⟩ : InterfState).mcColors m = [] := hempty
    have hmain := interfDomainLoop_eq A domains ⟨st0, fun _ => 0, consumers⟩
      hP10 hsub hdisj hdnd hconsnd
    cases hphase1 : runSteps (interfDomainStep A) ⟨st0, fun _ => 0, consumers⟩ domains with
    | error p =>
      obtain ⟨e, stp⟩ := p
      have hcodeEq : ColorAssigner.assign_color_by_interference_domains hw consumers
          domains st0 = .error (e, stp.mcColors) := by
        unfold ColorAssigner.assign_color_by_interference_domains
        rw [if_neg (not_not_intro (hallb.mpr hempty)), hall]
        simp only [hphase1]
      rw [hcodeEq]
      have hspec1 : runSteps (specDomainStep A) ⟨st0, fun _ => 0, consumers⟩ domains =
          .error e := by
        have h2 := hmain.1
        rw [hphase1] at h2
        exact h2.symm
      unfold spec_interference_assignment
      rw [hspec1]
      rfl
    | ok st1 =>
      have hspec1 : runSteps (specDomainStep A) ⟨st0, fun _ => 0, consumers⟩ domains =
          .ok st1 := by
        have h2 := hmain.1
        rw [hphase1] at h2
        exact h2.symm
      obtain ⟨hP1f, hndf⟩ := hmain.2 st1 hspec1
      have hrest := interfRestLoop_eq A st1.pending st1 hP1f hndf
      cases hphase2 : runSteps (interfRestStep A) st1 st1.pending with
      | error p =>
        obtain ⟨e, stp⟩ := p
        have hcodeEq : ColorAssigner.assign_color_by_interference_domains hw consumers
            domains st0 = .error (e, stp.mcColors) := by
          unfold ColorAssigner.assign_color_by_interference_domains
          rw [if_neg (not_not_intro (hallb.mpr hempty)), hall]
          simp only [hphase1, hphase2]
        rw [hcodeEq]
        have hspec2 : runSteps (specRestStep A) st1 st1.pending = .error e := by
          rw [hphase2] at hrest
          exact hrest.symm
        unfold spec_interference_assignment
        rw [hspec1]
        simp only [hspec2]
        rfl
      | ok st2 =>
        have hcodeEq : ColorAssigner.assign_color_by_interference_domains hw consumers
            domains st0 = .ok st2.mcColors := by
          unfold ColorAssigner.assign_color_by_interference_domains
          rw [if_neg (not_not_intro (hallb.mpr hempty)), hall]
          simp only [hphase1, hphase2]
        rw [hcodeEq]
        have hspec2 : runSteps (specRestStep A) st1 st1.pending = .ok st2 := by
          rw [hphase2] at hrest
          exact hrest.symm
        unfold spec_interference_assignment
        rw [hspec1]
        simp only [hspec2]
        rfl

def c7St0 : Nat → List SystemPageColor := fun _ => []

theorem c7_witness :
    dropState (ColorAssigner.assign_color_by_interference_domains c2Hw [1, 2] [[1]]
      c7St0) =
      spec_interference_assignment (allSystemPageColors c2Hw.cpu_cores 2) [1, 2] [[1]]
        c7St0 :=
  (c7_interference_refinement c2Hw [1, 2] [[1]] c7St0
    (allSystemPageColors c2Hw.cpu_cores 2) rfl (by decide)
    (List.Pairwise.cons (fun d hd => by cases hd) List.Pairwise.nil)
    (by intro d hd; rw [List.mem_singleton] at hd; rw [hd]; decide)
    (by intro d hd m hm; rw [List.mem_singleton] at hd; rw [hd] at hm;
        rw [List.mem_singleton] at hm; rw [hm]; decide)).2
    (by intro mc _; rfl)

/-- `ColorAssigner.assign_by_naive`: compute the pure assignment and only then
apply it to the consumers (`_enforce_assignment`); an exception carries the
(unchanged) consumer state. -/
def ColorAssigner.assign_by_naive (hw : Hardware) (consumers : List Nat)
    (st : Nat → List SystemPageColor) :
    Except (ModelError × (Nat → List SystemPageColor)) (Nat → List SystemPageColor) :=
  match ColorAssigner.get_assignment_by_naive hw consumers with
  | .error e => .error (e, st)
  | .ok asg =>
    match hw.get_all_system_page_colors with
    | .error e => .error (e, st)
    | .ok allColors => .ok (ColorAssigner.enforce_assignment asg allColors st)

/-- `ColorAssigner.assign_by_cache_isolation_domains`: compute the pure
assignment and only then apply it to the consumers. -/
def ColorAssigner.assign_by_cache_isolation_domains (hw : Hardware)
    (consumers : List Nat) (domains : List (List Nat))
    (getExecutors ecc : Nat → List Nat) (st : Nat → List SystemPageColor) :
    Except (ModelError × (Nat → List SystemPageColor)) (Nat → List SystemPageColor) :=
  match ColorAssigner.get_assignment_by_cache_isolation_domains hw consumers domains
      getExecutors ecc with
  | .error e => .error (e, st)
  | .ok asg =>
    match hw.get_all_system_page_colors with
    | .error e => .error (e, st)
    | .ok allColors => .ok (ColorAssigner.enforce_assignment asg allColors st)

def c4Cache : Cache := ⟨32768, 8, 64, false, false, 4096, 64, 64, 1⟩

/-- One CPU core, one CPU page color: exactly one system page color exists. -/
def c4Hw : Hardware := ⟨[0], [[c4Cache]]⟩

def c4Result :
    Except (ModelError × (Nat → List SystemPageColor)) (Nat → List SystemPageColor) :=
  ColorAssigner.assign_color_by_interference_domains c4Hw [1, 2] [[1], [2]] (fun _ => [])

def c4FinalColors : Nat → List SystemPageColor :=
  match c4Result with
  | .error (_, f) => f
  | .ok f => f

/-- C4 counterexample: on a hardware with a single system page color, two
consumers in two interference domains drive
`assign_color_by_interference_domains` into `ColorExhaustion` *after* consumer
1 already received color `(CPU_0, 0)` — the claim that an exhaustion raised
during an assign call leaves no consumer's accumulated color list modified is
false for this strategy. -/
theorem c4_counterexample :
    c4Result = .error (.colorExhaustion, c4FinalColors) ∧
      c4FinalColors 1 = [⟨0, 0⟩] ∧ c4FinalColors 1 ≠ [] :=
  ⟨rfl, rfl, by decide⟩

/-- C4 amended: the naive and cache-isolation-domain strategies compute the
whole assignment before applying it, so any error they raise leaves every
consumer's accumulated color list unchanged; the interference-domain strategy
mutates consumers during its pass and an exhaustion raised mid-pass leaves the
partial assignment applied (consumer 1 keeps `(CPU_0, 0)` in the concrete run
above). -/
theorem c4_all_or_nothing_amended (hw : Hardware) (consumers : List Nat)
    (domains : List (List Nat)) (getExecutors ecc : Nat → List Nat)
    (st : Nat → List SystemPageColor) :
    (∀ e st2, ColorAssigner.assign_by_naive hw consumers st = .error (e, st2) → st2 = st)
    ∧ (∀ e st2, ColorAssigner.assign_by_cache_isolation_domains hw consumers domains
        getExecutors ecc st = .error (e, st2) → st2 = st)
    ∧ (ColorAssigner.assign_color_by_interference_domains c4Hw [1, 2] [[1], [2]]
        (fun _ => []) = .error (.colorExhaustion, c4FinalColors)
       ∧ c4FinalColors 1 ≠ []) := by
  refine ⟨?_, ?_, rfl, by decide⟩
  · intro e st2 h
    unfold ColorAssigner.assign_by_naive at h
    cases hg : ColorAssigner.get_assignment_by_naive hw consumers with
    | error e2 =>
      rw [hg] at h
      have h2 : (Except.error (e2, st) :
          Except (ModelError × (Nat → List SystemPageColor))
            (Nat → List SystemPageColor)) = .error (e, st2) := h
      simp only [Except.error.injEq, Prod.mk.injEq] at h2
      exact h2.2.symm
    | ok asg =>
      rw [hg] at h
      cases ha : hw.get_all_system_page_colors with
      | error e2 =>
        rw [ha] at h
        have h2 : (Except.error (e2, st) :
            Except (ModelError × (Nat → List SystemPageColor))
              (Nat → List SystemPageColor)) = .error (e, st2) := h
        simp only [Except.error.injEq, Prod.mk.injEq] at h2
        exact h2.2.symm
      | ok allColors =>
        rw [ha] at h
        have h2 : (Except.ok (ColorAssigner.enforce_assignment asg allColors st) :
            Except (ModelError × (Nat → List SystemPageColor))
              (Nat → List SystemPageColor)) = .error (e, st2) := h
        cases h2
  · intro e st2 h
    unfold ColorAssigner.assign_by_cache_isolation_domains at h
    cases hg : ColorAssigner.get_assignment_by_cache_isolation_domains hw consumers
        domains getExecutors ecc with
    | error e2 =>
      rw [hg] at h
      have h2 : (Except.error (e2, st) :
          Except (ModelError × (Nat → List SystemPageColor))
            (Nat → List SystemPageColor)) = .error (e, st2) := h
      simp only [Except.error.injEq, Prod.mk.injEq] at h2
      exact h2.2.symm
    | ok asg =>
      rw [hg] at h
      cases ha : hw.get_all_system_page_colors with
      | error e2 =>
        rw [ha] at h
        have h2 : (Except.error (e2, st) :
            Except (ModelError × (Nat → List SystemPageColor))
              (Nat → List SystemPageColor)) = .error (e, st2) := h
        simp only [Except.error.injEq, Prod.mk.injEq] at h2
        exact h2.2.symm
      | ok allColors =>
        rw [ha] at h
        have h2 : (Except.ok (ColorAssigner.enforce_assignment asg allColors st) :
            Except (ModelError × (Nat → List SystemPageColor))
              (Nat → List SystemPageColor)) = .error (e, st2) := h
        cases h2

def c4NaiveRes :
    Except (ModelError × (Nat → List SystemPageColor)) (Nat → List SystemPageColor) :=
  ColorAssigner.assign_by_naive c4Hw [1, 2] (fun _ => [])

def c4NaiveFailState : Nat → List SystemPageColor :=
  match c4NaiveRes with
  | .error (_, s) => s
  | .ok s => s

theorem c4_amended_witness :
    c4NaiveFailState = (fun _ => ([] : List SystemPageColor)) :=
  (c4_all_or_nothing_amended c4Hw [1, 2] [] (fun _ => []) (fun _ => [])
    (fun _ => [])).1 .colorExhaustion c4NaiveFailState rfl

/-- A Python `range(start, stop)` of byte addresses (step 1). -/
structure MRange where
  start : Nat
  stop : Nat
deriving DecidableEq

/-- `len(mem_range)`. -/
def MRange.size (r : MRange) : Nat := r.stop - r.start

/-- The set of addresses of the range. -/
def MRange.toFinset (r : MRange) : Finset Nat := Finset.Ico r.start r.stop

/-- The `MemoryConsumer` class (name-identified attributes; executors are
executor ids). -/
structure MemoryConsumer where
  memsize : Nat
  address_space : Option (List MRange)
  colors : List SystemPageColor
  executors : List Nat
deriving DecidableEq

/-- `__address_space_size`: the summed lengths of the ranges. -/
def addressSpaceSize (address_space : List MRange) : Nat :=
  address_space.foldl (fun size mem_range => size + mem_range.size) 0

/-- The union of all addresses of the address space (`set().union(*...)`), as
computed by the body of the local helper `__address_space_not_overlapping`
(which the third assert can never successfully call, see
`MemoryConsumer.set_address_space`). -/
def addressSpaceUnion (address_space : List MRange) : Finset Nat :=
  address_space.foldr (fun mem_range acc => mem_range.toFinset ∪ acc) ∅

/-- `MemoryConsumer.set_address_space`: the first assert requires at least one
range and the second requires the summed range lengths to equal the consumer's
declared memory size.  The third assert then evaluates
`MemoryConsumer.__address_space_not_overlapping(address_space)`; written
inside the class body, that reference name-mangles to the class attribute
`_MemoryConsumer__address_space_not_overlapping`, which does not exist (the
overlap checker is a local function of the method, not a class attribute), so
every call that reaches the third assert raises `AttributeError` and the
address space is never stored. -/
def MemoryConsumer.set_address_space (mc : MemoryConsumer)
    (address_space : List MRange) : Except ModelError MemoryConsumer :=
  if address_space.length = 0 then .error .assertionError
  else if ¬ (addressSpaceSize address_space = mc.memsize) then .error .assertionError
  else .error .attributeError

theorem MRange.card_toFinset (r : MRange) : r.toFinset.card = r.size := by
  unfold MRange.toFinset MRange.size
  exact Nat.card_Ico _ _

theorem addressSpaceSize_eq_sum (address_space : List MRange) :
    addressSpaceSize address_space = (address_space.map MRange.size).sum := by
  unfold addressSpaceSize
  have haux : ∀ (l : List MRange) (a : Nat),
      l.foldl (fun size mem_range => size + mem_range.size) a =
        a + (l.map MRange.size).sum := by
    intro l
    induction l with
    | nil => simp
    | cons r rest ih =>
      intro a
      simp only [List.foldl_cons, List.map_cons, List.sum_cons, ih]
      omega
  rw [haux]
  omega

theorem mem_addressSpaceUnion (address_space : List MRange) (x : Nat) :
    x ∈ addressSpaceUnion address_space ↔ ∃ r ∈ address_space, x ∈ r.toFinset := by
  induction address_space with
  | nil => simp [addressSpaceUnion]
  | cons r rest ih =>
    unfold addressSpaceUnion at ih ⊢
    simp only [List.foldr_cons, Finset.mem_union, ih]
    constructor
    · rintro (h | ⟨s, hs, hx⟩)
      · exact ⟨r, by simp, h⟩
      · exact ⟨s, List.mem_cons_of_mem _ hs, hx⟩
    · rintro ⟨s, hs, hx⟩
      rcases List.mem_cons.mp hs with rfl | hs
      · exact Or.inl hx
      · exact Or.inr ⟨s, hs, hx⟩

theorem addressSpaceUnion_card_le (address_space : List MRange) :
    (addressSpaceUnion address_space).card ≤ (address_space.map MRange.size).sum := by
  induction address_space with
  | nil => simp [addressSpaceUnion]
  | cons r rest ih =>
    unfold addressSpaceUnion at ih ⊢
    simp only [List.foldr_cons, List.map_cons, List.sum_cons]
    calc (r.toFinset ∪ rest.foldr (fun (mem_range : MRange) acc => mem_range.toFinset ∪ acc) ∅).card
        ≤ r.toFinset.card + (rest.foldr (fun (mem_range : MRange) acc => mem_range.toFinset ∪ acc) ∅).card :=
          Finset.card_union_le _ _
      _ ≤ r.size + (rest.map MRange.size).sum := by
          rw [MRange.card_toFinset]
          omega

theorem addressSpaceUnion_card_eq_iff (address_space : List MRange) :
    (addressSpaceUnion address_space).card = (address_space.map MRange.size).sum ↔
      List.Pairwise (fun r s => Disjoint r.toFinset s.toFinset) address_space := by
  induction address_space with
  | nil => simp [addressSpaceUnion]
  | cons r rest ih =>
    unfold addressSpaceUnion at ih ⊢
    simp only [List.foldr_cons, List.map_cons, List.sum_cons, List.pairwise_cons]
    have hkey := Finset.card_union_add_card_inter r.toFinset
      (rest.foldr (fun (mem_range : MRange) acc => mem_range.toFinset ∪ acc) ∅)
    have hle := addressSpaceUnion_card_le rest
    unfold addressSpaceUnion at hle
    have hdisj_iff : Disjoint r.toFinset
        (rest.foldr (fun (mem_range : MRange) acc => mem_range.toFinset ∪ acc) ∅) ↔
        ∀ s ∈ rest, Disjoint r.toFinset s.toFinset := by
      constructor
      · intro h s hs
        rw [Finset.disjoint_left] at h ⊢
        intro a ha
        intro hc
        refine h ha ?_
        have := (mem_addressSpaceUnion rest a).mpr ⟨s, hs, hc⟩
        unfold addressSpaceUnion at this
        exact this
      · intro h
        rw [Finset.disjoint_left]
        intro a ha hc
        have := (mem_addressSpaceUnion rest a).mp (by unfold addressSpaceUnion; exact hc)
        obtain ⟨s, hs, hx⟩ := this
        exact (Finset.disjoint_left.mp (h s hs)) ha hx
    constructor
    · intro heq
      have hcard : (r.toFinset ∩
          rest.foldr (fun (mem_range : MRange) acc => mem_range.toFinset ∪ acc) ∅).card = 0 ∧
          (rest.foldr (fun (mem_range : MRange) acc => mem_range.toFinset ∪ acc) ∅).card =
            (rest.map MRange.size).sum := by
        have hcardr := MRange.card_toFinset r
        constructor <;> omega
      refine ⟨hdisj_iff.mp ?_, ih.mp hcard.2⟩
      exact Finset.disjoint_iff_inter_eq_empty.mpr (Finset.card_eq_zero.mp hcard.1)
    · rintro ⟨hdisj, hpw⟩
      have hd := hdisj_iff.mpr hdisj
      have hinter : (r.toFinset ∩
          rest.foldr (fun (mem_range : MRange) acc => mem_range.toFinset ∪ acc) ∅).card = 0 := by
        rw [Finset.card_eq_zero, ← Finset.disjoint_iff_inter_eq_empty]
        exact hd
      have hcardr := MRange.card_toFinset r
      have hrest := ih.mpr hpw
      omega

/-- C8 evidence: every call of `set_address_space` with a non-empty range
list whose lengths sum to the declared memory size raises `AttributeError`
before the address space could be stored — the claimed (and clearly intended,
per the dead local helper `__address_space_not_overlapping` and the assert
message) success path is unreachable in the code. -/
theorem c8_set_address_space_attribute_error (mc : MemoryConsumer)
    (address_space : List MRange) (hne : address_space ≠ [])
    (hsize : addressSpaceSize address_space = mc.memsize) :
    mc.set_address_space address_space = .error .attributeError := by
  unfold MemoryConsumer.set_address_space
  rw [if_neg (fun hc => hne (List.length_eq_zero.mp hc)), if_neg (not_not_intro hsize)]

def c8Consumer : MemoryConsumer := ⟨4, none, [], []⟩

theorem c8_witness :
    c8Consumer.set_address_space [⟨0, 2⟩, ⟨2, 4⟩] = .error .attributeError :=
  c8_set_address_space_attribute_error c8Consumer [⟨0, 2⟩, ⟨2, 4⟩]
    (by decide) (by decide)

/-- A Python dict from subject id to list of channel ids, as an association
list in insertion order. -/
def assocAppend (m : List (Nat × List Nat)) (k v : Nat) : List (Nat × List Nat) :=
  if (m.find? (fun p => p.1 == k)).isSome then
    m.map (fun p => if p.1 = k then (p.1, p.2 ++ [v]) else p)
  else
    m ++ [(k, [v])]

def assocLookup (m : List (Nat × List Nat)) (k : Nat) : List Nat :=
  match m.find? (fun p => p.1 == k) with
  | some p => p.2
  | none => []

/-- The `Subject` class: a memory consumer with directed channel maps
(`inchannels` keyed by the source subject, `outchannels` keyed by the target
subject; values are channel ids). -/
structure Subject where
  id : Nat
  memsize : Nat
  inchannels : List (Nat × List Nat)
  outchannels : List (Nat × List Nat)
deriving DecidableEq

/-- The `Channel` class: an unidirectional communication relationship between
a source (writer) subject and a target (reader) subject. -/
structure Channel where
  memsize : Nat
  source : Nat
  target : Nat
  executors : List Nat
deriving DecidableEq

/-- The writer end of a channel: its single source subject. -/
def Channel.writers (ch : Channel) : List Nat := [ch.source]

/-- The reader ends of a channel: its target subject. -/
def Channel.readers (ch : Channel) : List Nat := [ch.target]

/-- `Subject.add_outchannel`: register the channel under its target. -/
def Subject.add_outchannel (s : Subject) (chId : Nat) (ch : Channel) : Subject :=
  { s with outchannels := assocAppend s.outchannels ch.target chId }

/-- `Subject.add_inchannel`: register the channel under its source. -/
def Subject.add_inchannel (s : Subject) (chId : Nat) (ch : Channel) : Subject :=
  { s with inchannels := assocAppend s.inchannels ch.source chId }

/-- `Channel.__init__`: after the `MemoryConsumer` size assertions, register
the new channel on the source's out-channel map and the target's in-channel
map, and add both end subjects to the channel's executor list. -/
def Channel.init (memsize chId : Nat) (source target : Subject) :
    Except ModelError (Channel × Subject × Subject) :=
  if ¬ (memsize % 4096 = 0) then .error .assertionError
  else if ¬ (0 < memsize) then .error .assertionError
  else
    let ch : Channel := ⟨memsize, source.id, target.id, []⟩
    let source2 := source.add_outchannel chId ch
    let target2 := target.add_inchannel chId ch
    let ch2 : Channel := { ch with executors := ch.executors ++ [source.id] }
    let ch3 : Channel := { ch2 with executors := ch2.executors ++ [target.id] }
    .ok (ch3, source2, target2)

theorem assocLookup_map_append (m : List (Nat × List Nat)) (k v : Nat)
    (hfind : (m.find? (fun p => p.1 == k)).isSome) :
    v ∈ assocLookup (m.map (fun p => if p.1 = k then (p.1, p.2 ++ [v]) else p)) k := by
  induction m with
  | nil => simp [List.find?] at hfind
  | cons p rest ih =>
    by_cases hk : p.1 = k
    · unfold assocLookup
      rw [List.map_cons, if_pos hk]
      rw [List.find?_cons_of_pos _ (by simp [hk])]
      simp
    · unfold assocLookup
      rw [List.map_cons, if_neg hk]
      rw [List.find?_cons_of_neg _ (by simp [hk])]
      have hfind2 : (rest.find? (fun p => p.1 == k)).isSome := by
        rw [List.find?_cons_of_neg _ (by simp [hk])] at hfind
        exact hfind
      exact ih hfind2

theorem assocLookup_append_new (m : List (Nat × List Nat)) (k v : Nat)
    (hfind : ¬ (m.find? (fun p => p.1 == k)).isSome) :
    v ∈ assocLookup (m ++ [(k, [v])]) k := by
  induction m with
  | nil =>
    unfold assocLookup
    rw [List.nil_append, List.find?_cons_of_pos _ (by simp)]
    simp
  | cons p rest ih =>
    have hk : ¬ p.1 = k := by
      intro hc
      rw [List.find?_cons_of_pos _ (by simp [hc])] at hfind
      simp at hfind
    unfold assocLookup
    rw [List.cons_append, List.find?_cons_of_neg _ (by simp [hk])]
    have hfind2 : ¬ (rest.find? (fun p => p.1 == k)).isSome := by
      rw [List.find?_cons_of_neg _ (by simp [hk])] at hfind
      exact hfind
    exact ih hfind2

theorem assocLookup_assocAppend (m : List (Nat × List Nat)) (k v : Nat) :
    v ∈ assocLookup (assocAppend m k v) k := by
  unfold assocAppend
  by_cases hfind : (m.find? (fun p => p.1 == k)).isSome
  · rw [if_pos hfind]
    exact assocLookup_map_append m k v hfind
  · rw [if_neg hfind]
    exact assocLookup_append_new m k v hfind

/-- C9: constructing a `Channel` registers it, at construction time, in the
writer subject's out-channel map keyed by the channel's target and in the
reader subject's in-channel map keyed by the channel's source, and adds both
end subjects, writer first, to the channel's executor list; the channel has
exactly one writer executor and one-or-more reader executors. -/
theorem c9_channel_init (memsize chId : Nat) (source target : Subject)
    (h1 : memsize % 4096 = 0) (h2 : 0 < memsize) :
    Channel.init memsize chId source target =
      .ok (⟨memsize, source.id, target.id, [source.id, target.id]⟩,
           { source with outchannels := assocAppend source.outchannels target.id chId },
           { target with inchannels := assocAppend target.inchannels source.id chId })
    ∧ chId ∈ assocLookup (assocAppend source.outchannels target.id chId) target.id
    ∧ chId ∈ assocLookup (assocAppend target.inchannels source.id chId) source.id
    ∧ (⟨memsize, source.id, target.id, [source.id, target.id]⟩ : Channel).writers.length = 1
    ∧ 1 ≤ (⟨memsize, source.id, target.id, [source.id, target.id]⟩ : Channel).readers.length := by
  refine ⟨?_, assocLookup_assocAppend _ _ _, assocLookup_assocAppend _ _ _, rfl, by simp [Channel.readers]⟩
  unfold Channel.init
  rw [if_neg (not_not_intro h1), if_neg (not_not_intro h2)]
  rfl

def c9Source : Subject := ⟨1, 4096, [], []⟩

def c9Target : Subject := ⟨2, 4096, [], []⟩

theorem c9_witness :
    Channel.init 4096 7 c9Source c9Target =
      .ok (⟨4096, c9Source.id, c9Target.id, [c9Source.id, c9Target.id]⟩,
           { c9Source with
              outchannels := assocAppend c9Source.outchannels c9Target.id 7 },
           { c9Target with
              inchannels := assocAppend c9Target.inchannels c9Source.id 7 }) :=
  (c9_channel_init 4096 7 c9Source c9Target (by decide) (by decide)).1
